import Mathlib

/-!
# Verification of the conversation-grouping engine of `summarizer`

This file is a shallow embedding, in Lean 4, of the message-grouping core of
the `summarizer` repository (`src/summarizer/grouping.py`, together with the
data model of `src/summarizer/common/models.py` and the person-resolution
helper `safe_get_person` of `src/summarizer/webex/client.py`), and proofs of
the behavioural properties stated about it.

Modelling conventions:

* `datetime` timestamps and `timedelta` context windows are modelled as `Int`
  values counting whole seconds; with whole-second timestamps,
  `int((t2 - t1).total_seconds())` is exactly `t2 - t1`.
* Python lists are Lean `List`s; Python `dict`s (which preserve key insertion
  order, append new keys at the end and overwrite values in place) are
  modelled as association lists with explicit insert-or-overwrite helpers.
* Python's stable `sorted(xs, key=...)` is modelled by a stable insertion
  sort on the boolean comparison of timestamps: a stable sort of a list
  under a given key comparison is unique, so the two agree as functions
  (and the structural recursion keeps every grouping function computable by
  the kernel).
* `str.lower` is modelled at the ASCII level (`Char.toLower`); non-ASCII case
  mapping is outside the model.  Every character left unchanged by this
  difference is subsequently replaced by `-` in `slugify`, which only keeps
  `[a-z0-9]`.
* Exceptions are modelled with `Except PyErr`; the single `try/except` block
  of `build_dm_conversation` becomes an explicit match that maps any error to
  the fallback value, exactly as the Python handler does.  The block's lazy
  `from .webex import safe_get_person` raises `ImportError` in this
  repository (the `summarizer/webex` package shadows `summarizer/webex.py`
  and does not export `safe_get_person`), and the handler swallows it, so
  the person lookup is never reached: the branch where a counterpart
  membership is found is modelled as raising before the lookup.
* The optional Webex client (`client: WebexAPI | None`) is modelled as an
  `Option WebexClientModel`, a record of the two effectful operations
  actually used (`memberships.list` and `people.get`), each returning
  `Except PyErr` values; the module-level `_person_cache` dictionary is
  threaded through the functions as explicit state.
-/

/-! ## Data model (`src/summarizer/common/models.py`) -/

/-- `SpaceType` enum: the type of space. -/
inductive SpaceType where
  | DM : SpaceType
  | GROUP : SpaceType
deriving DecidableEq, Repr

/-- `User` dataclass: data for a user. -/
structure User where
  id : String
  display_name : String
deriving DecidableEq, Repr

/-- `Thread` dataclass: data for a thread. -/
structure Thread where
  id : String
  original_post_id : String
  original_poster : User
deriving DecidableEq, Repr

/-- `Message` dataclass: data for a message.  `timestamp` is in whole
seconds; `conversation_id` is carried but never consulted by grouping. -/
structure Message where
  id : String
  space_id : String
  space_type : SpaceType
  space_name : String
  sender : User
  recipients : List User
  timestamp : Int
  content : String
  thread : Option Thread := none
  conversation_id : Option String := none
deriving DecidableEq, Repr

/-- `Conversation` dataclass: data for a conversation.  The grouping code
always supplies every field, so the `None` defaults of the dataclass are not
modelled. -/
structure Conversation where
  id : String
  space_id : String
  space_type : SpaceType
  participants : List User
  messages : List Message
  start_time : Int
  end_time : Int
  duration_seconds : Int
  is_threaded : Bool
deriving DecidableEq, Repr

/-! ## `slugify` (`grouping.py` lines 14-19)

```python
def slugify(value: str) -> str:
    value = value.lower()
    value = re.sub(r"[^a-z0-9]+", "-", value)
    value = re.sub(r"-+", "-", value)
    return value.strip("-")
```

Each `re.sub` with a one-character-class-plus pattern replaces every maximal
run of matching characters by a single `"-"`.  This is rendered as a linear
scan carrying one bit of state, `inRun`: whether the previous character was
part of a (not yet terminated) matching run. -/

/-- The character class `[a-z0-9]` of the first regular expression. -/
def isSlugChar (c : Char) : Bool :=
  (97 ≤ c.toNat ∧ c.toNat ≤ 122) ∨ (48 ≤ c.toNat ∧ c.toNat ≤ 57)

/-- `re.sub(r"[^a-z0-9]+", "-", ·)` on a character list: every maximal run
of characters outside `[a-z0-9]` becomes one `'-'`. -/
def subNonAlnum : Bool → List Char → List Char
  | _, [] => []
  | inRun, c :: cs =>
    if isSlugChar c then c :: subNonAlnum false cs
    else if inRun then subNonAlnum true cs
    else '-' :: subNonAlnum true cs

/-- `re.sub(r"-+", "-", ·)` on a character list: every maximal run of `'-'`
becomes one `'-'`. -/
def subDashRuns : Bool → List Char → List Char
  | _, [] => []
  | inRun, c :: cs =>
    if c = '-' then
      if inRun then subDashRuns true cs else '-' :: subDashRuns true cs
    else c :: subDashRuns false cs

/-- Python `str.strip("-")`: drop leading and trailing `'-'` characters. -/
def stripDashes (l : List Char) : List Char :=
  ((l.dropWhile (fun c => c = '-')).reverse.dropWhile (fun c => c = '-')).reverse

/-- `slugify` (`grouping.py` lines 14-19): lower-case, replace runs of
non-alphanumerics by `-`, collapse runs of `-`, strip edge `-`. -/
def slugify (value : String) : String :=
  String.mk (stripDashes (subDashRuns false (subNonAlnum false (value.data.map Char.toLower))))

/-! ## Python `dict` helpers -/

/-- `d[k] = v` on a Python `dict` modelled as an association list: overwrite
in place if the key is present, else append the new binding. -/
def dictInsert {β : Type} (d : List (String × β)) (k : String) (v : β) :
    List (String × β) :=
  if d.any (fun p => p.1 = k) then
    d.map (fun p => if p.1 = k then (p.1, v) else p)
  else d ++ [(k, v)]

/-- `d[k].append(v)` for a `dict` of lists (the key is assumed present, as in
`defaultdict` usage after the key has been materialised). -/
def dictAppend {β : Type} (d : List (String × List β)) (k : String) (v : β) :
    List (String × List β) :=
  d.map (fun p => if p.1 = k then (p.1, p.2 ++ [v]) else p)

/-- Membership test `k in d`. -/
def dictHasKey {β : Type} (d : List (String × β)) (k : String) : Bool :=
  d.any (fun p => p.1 = k)

/-- Lookup `d[k]`, as an `Option` (a `KeyError` would be `none`). -/
def dictFind {β : Type} (d : List (String × β)) (k : String) : Option β :=
  (d.find? (fun p => p.1 = k)).map Prod.snd

/-- `{m.sender.id: m.sender for m in msgs}`: a dict comprehension keyed by
sender id.  Key order is first occurrence; the value stored for a key is the
sender object of the *last* message with that sender id. -/
def sendersDict (msgs : List Message) : List (String × User) :=
  msgs.foldl (fun d m => dictInsert d m.sender.id m.sender) []

/-! ## `group_messages_by_space` (`grouping.py` lines 22-29) -/

/-- One step of the `defaultdict(list)` loop: append `m` to the bucket of its
`space_id`, materialising the bucket first if absent. -/
def addToSpaceDict (d : List (String × List Message)) (m : Message) :
    List (String × List Message) :=
  if dictHasKey d m.space_id then dictAppend d m.space_id m
  else d ++ [(m.space_id, [m])]

/-- `group_messages_by_space`: group messages by their `space_id`.  The
result is the `defaultdict` as an association list in key insertion order. -/
def group_messages_by_space (messages : List Message) :
    List (String × List Message) :=
  messages.foldl addToSpaceDict []

/-! ## Sorting by timestamp -/

/-- The comparison used by `sorted(..., key=lambda m: m.timestamp)`. -/
def leTS (a b : Message) : Bool := a.timestamp ≤ b.timestamp

/-- Stable insertion of a message into a timestamp-sorted list: the message
goes immediately before the first element whose timestamp is not below its
own, so it lands *after* every earlier element with an equal timestamp. -/
def insertTS (m : Message) : List Message → List Message
  | [] => [m]
  | a :: l => if leTS m a then m :: a :: l else a :: insertTS m l

/-- `sorted(space_messages, key=lambda m: m.timestamp)`: a stable sort by
timestamp.  A stable sort of a given list under a given key ordering is a
uniquely determined function, so this stable insertion sort agrees with
Python's stable `sorted` on every input. -/
def sortMsgs (l : List Message) : List Message := l.foldr insertTS []

/-! ## `find_conversation_windows` (`grouping.py` lines 32-61)

The Python function iterates over the sorted list by index `i`, skipping
indices already in `used_indices`; a qualifying unused message seeds a
window and the inner loop walks forward from `i + 1`, appending (and
claiming) every message inside `[window_start, window_end]` and breaking at
the first message past `window_end`.  The inner loop does *not* consult
`used_indices` — faithfully reproduced here.  The enumerated list plays the
role of the index range; `used` is the `used_indices` set. -/

/-- Inner loop of `find_conversation_windows` (lines 53-59), from the list
suffix that starts at index `i + 1`.  Returns the appended messages together
with the indices added to `used_indices`. -/
def fcwInner (wStart wEnd : Int) : List (Nat × Message) → List Message × List Nat
  | [] => ([], [])
  | (j, m2) :: rest =>
    if wStart ≤ m2.timestamp ∧ m2.timestamp ≤ wEnd then
      let r := fcwInner wStart wEnd rest
      (m2 :: r.1, j :: r.2)
    else if wEnd < m2.timestamp then ([], [])
    else fcwInner wStart wEnd rest

/-- Outer loop of `find_conversation_windows` (lines 43-60) over the
enumerated sorted messages. -/
def fcwOuter (cw : Int) (user_id : String) (include_passive all_messages : Bool) :
    List (Nat × Message) → List Nat → List (List Message)
  | [], _ => []
  | (i, msg) :: rest, used =>
    if i ∈ used then fcwOuter cw user_id include_passive all_messages rest used
    else if ¬(msg.sender.id = user_id) ∧ ¬include_passive ∧ ¬all_messages then
      fcwOuter cw user_id include_passive all_messages rest used
    else
      let wStart := msg.timestamp - cw
      let wEnd := msg.timestamp + cw
      let r := fcwInner wStart wEnd rest
      (msg :: r.1) :: fcwOuter cw user_id include_passive all_messages rest (r.2 ++ i :: used)

/-- `find_conversation_windows`: find conversation windows in a list of
messages for a space. -/
def find_conversation_windows (space_messages : List Message) (context_window : Int)
    (user_id : String) (include_passive : Bool) (all_messages : Bool := false) :
    List (List Message) :=
  fcwOuter context_window user_id include_passive all_messages
    (sortMsgs space_messages).enum []

/-! ## The Webex client model and `safe_get_person`
(`src/summarizer/webex/client.py` lines 21-79)

`safe_get_person` consults a cache, calls `client.people.get`, converts the
SDK `Person` to a `User`, returns a `"[Deleted User]"` placeholder on a 404
`ApiError` (caching it), and re-raises every other error.

It is embedded here because the grouping code names it, but it is only
importable as `summarizer.webex.client.safe_get_person`: the lazy
`from .webex import safe_get_person` in `grouping.py` line 83 resolves
`summarizer.webex` to the `webex/` *package* (which shadows the sibling
module `webex.py` and re-exports only its client classes), so that import
raises `ImportError` inside the `try` of `build_dm_conversation` and the
DM path can never actually call this function — see `tryResolveOther`. -/

/-- A Python exception: either a Webex `ApiError` (the only class caught by
`safe_get_person`) or any other exception, each carrying `str(e)`. -/
inductive PyErr where
  | apiError (msg : String) : PyErr
  | other (msg : String) : PyErr
deriving DecidableEq, Repr

/-- An SDK `Person` object (the fields used by `sdk_person_to_user`). -/
structure Person where
  id : String
  displayName : String
deriving DecidableEq, Repr

/-- An SDK `Membership` object (the field used by `build_dm_conversation`);
named `MembershipRec` because `Membership` is taken by the Lean library. -/
structure MembershipRec where
  personId : String
deriving DecidableEq, Repr

/-- The two effectful Webex API operations used by the grouping code, as
abstract functions from arguments to an outcome. -/
structure WebexClientModel where
  membershipsList : String → Except PyErr (List MembershipRec)
  peopleGet : String → Except PyErr Person

/-- The `_person_cache` dictionary. -/
abbrev PersonCache := List (String × User)

/-- `"404" in str(e)`. -/
def has404 (msg : String) : Bool := decide ("404".data <:+: msg.data)

/-- `sdk_person_to_user`: convert an SDK `Person` to a `User`. -/
def sdk_person_to_user (p : Person) : User :=
  { id := p.id, display_name := p.displayName }

/-- `safe_get_person` (`client.py` lines 40-79): fetch a person, consulting
and updating the cache, degrading a 404 `ApiError` to the
`"[Deleted User]"` placeholder and re-raising every other error.  The state
of the cache after the call is returned alongside the result. -/
def safe_get_person (client : WebexClientModel) (person_id : String)
    (cache : PersonCache) : Except PyErr (User × PersonCache) :=
  match dictFind cache person_id with
  | some u => .ok (u, cache)
  | none =>
    match client.peopleGet person_id with
    | .ok p =>
      let user := sdk_person_to_user p
      .ok (user, dictInsert cache person_id user)
    | .error (.apiError m) =>
      if has404 m then
        let placeholder : User := { id := person_id, display_name := "[Deleted User]" }
        .ok (placeholder, dictInsert cache person_id placeholder)
      else .error (.apiError m)
    | .error (.other m) => .error (.other m)

/-! ## `build_dm_conversation` (`grouping.py` lines 64-106) -/

/-- The `try` block of `build_dm_conversation` (lines 79-91): list the room
memberships and look for the first membership whose `personId` differs from
the authenticated user; *any* exception of the block is swallowed by the
`except Exception` handler, leaving `other_participant = None` and the
person cache untouched.

When a counterpart membership is found, the loop body executes
`from .webex import safe_get_person` before calling it.  In this repository
that import *raises* `ImportError`: `src/summarizer/` holds both a module
`webex.py` and a package `webex/`, the package shadows the module under the
name `summarizer.webex`, and its `__init__.py` exports only `WebexClient`,
`WebexConfig` and `WebexRunner` — no `safe_get_person` (the function lives
in `summarizer/webex/client.py` and is not re-exported).  The handler
swallows the `ImportError` like any other failure, so the person lookup is
never reached and every branch of the block resolves to `None` with the
cache unchanged. -/
def tryResolveOther (cl : WebexClientModel) (space_id user_id : String)
    (cache : PersonCache) : Option User × PersonCache :=
  match cl.membershipsList space_id with
  | .error _ => (none, cache)
  | .ok memberships =>
    match memberships.find? (fun mb => mb.personId ≠ user_id) with
    | none => (none, cache)
    | some _ =>
      -- `from .webex import safe_get_person` raises here; the `except`
      -- catches it before `safe_get_person` can run.
      (none, cache)

/-- `build_dm_conversation`: build a `Conversation` for a DM window.  The
`IndexError` raised by `convo_msgs[0]` on an empty window (outside the
`try` block) is modelled by the `.error` branch; on a nonempty window the
function always returns `.ok`. -/
def build_dm_conversation (convo_msgs : List Message) (user_id : String)
    (conversation_id : Nat) (client : Option WebexClientModel)
    (cache : PersonCache) : Except PyErr (Conversation × PersonCache) :=
  let participants := sendersDict convo_msgs
  let other0 := (participants.map Prod.snd).find? (fun p => p.id ≠ user_id)
  let resolved : Option User × PersonCache :=
    match other0, client with
    | none, some cl =>
      -- `convo_msgs[0].space_id` is evaluated inside the `try`: on an empty
      -- window the `IndexError` is caught like any other exception.
      match convo_msgs.head? with
      | none => (none, cache)
      | some m0 => tryResolveOther cl m0.space_id user_id cache
    | o, _ => (o, cache)
  let slug := slugify (match resolved.1 with
    | some p => p.display_name
    | none => "unknown")
  match convo_msgs with
  | [] => .error (.other "IndexError: list index out of range")
  | m0 :: rest =>
    .ok ({ id := "dm-" ++ slug ++ "-" ++ Nat.repr conversation_id,
           space_id := m0.space_id,
           space_type := m0.space_type,
           participants := participants.map Prod.snd,
           messages := m0 :: rest,
           start_time := m0.timestamp,
           end_time := (rest.getLastD m0).timestamp,
           duration_seconds := (rest.getLastD m0).timestamp - m0.timestamp,
           is_threaded := false }, resolved.2)

/-! ## `group_dm_conversations` (`grouping.py` lines 109-141) -/

/-- The inner `for convo_msgs in windows` loop: build one conversation per
window, incrementing `conversation_id_counter` after each; an exception
escaping `build_dm_conversation` aborts the loop (propagates). -/
def buildDmWindows (user_id : String) (client : Option WebexClientModel) :
    List (List Message) → Nat → PersonCache →
    Except PyErr (List Conversation × Nat × PersonCache)
  | [], c, cache => .ok ([], c, cache)
  | w :: ws, c, cache =>
    match build_dm_conversation w user_id c client cache with
    | .error e => .error e
    | .ok (conv, cache') =>
      match buildDmWindows user_id client ws (c + 1) cache' with
      | .error e => .error e
      | .ok (convs, c', cache'') => .ok (conv :: convs, c', cache'')

/-- The `for space_messages in messages_by_space.values()` loop of
`group_dm_conversations`. -/
def gdmSpaces (context_window : Int) (user_id : String) (include_passive : Bool)
    (client : Option WebexClientModel) (all_messages : Bool) :
    List (String × List Message) → Nat → PersonCache →
    Except PyErr (List Conversation × Nat × PersonCache)
  | [], c, cache => .ok ([], c, cache)
  | (_, space_messages) :: rest, c, cache =>
    match buildDmWindows user_id client
        (find_conversation_windows space_messages context_window user_id
          include_passive all_messages) c cache with
    | .error e => .error e
    | .ok (convs, c', cache') =>
      match gdmSpaces context_window user_id include_passive client all_messages
          rest c' cache' with
      | .error e => .error e
      | .ok (convs', c'', cache'') => .ok (convs ++ convs', c'', cache'')

/-- `group_dm_conversations`: group messages in DM spaces into conversations
based on the time context window. -/
def group_dm_conversations (messages : List Message) (context_window : Int)
    (user_id : String) (include_passive : Bool := false)
    (client : Option WebexClientModel := none) (all_messages : Bool := false)
    (cache : PersonCache := []) : Except PyErr (List Conversation × PersonCache) :=
  match messages with
  | [] => .ok ([], cache)
  | _ =>
    match gdmSpaces context_window user_id include_passive client all_messages
        (group_messages_by_space messages) 1 cache with
    | .error e => .error e
    | .ok (convs, _, cache') => .ok (convs, cache')

/-! ## `_group_threaded_messages` (`grouping.py` lines 144-157) -/

/-- One step of the `_group_threaded_messages` loop: a message with a
`thread` is appended to its thread's bucket; when the thread id is seen for
the first time the bucket is created and
`thread_owners[thread_id] = msg.thread.original_poster.id` is recorded. -/
def gtmStep (acc : List (String × List Message) × List (String × String))
    (m : Message) : List (String × List Message) × List (String × String) :=
  match m.thread with
  | none => acc
  | some t =>
    if dictHasKey acc.1 t.id then (dictAppend acc.1 t.id m, acc.2)
    else (acc.1 ++ [(t.id, [m])], acc.2 ++ [(t.id, t.original_poster.id)])

/-- `_group_threaded_messages`: group threaded messages by thread id,
returning `(thread_conversations, thread_owners)`. -/
def _group_threaded_messages (messages : List Message) :
    List (String × List Message) × List (String × String) :=
  messages.foldl gtmStep ([], [])

/-! ## `_create_thread_conversations` (`grouping.py` lines 160-199) -/

/-- The loop of `_create_thread_conversations` over the
`thread_conversations` dict, threading `conversation_id_counter`.
`thread_owners[thread_id]` always succeeds in the source (the two dicts are
built together); the unreachable `KeyError` branch is rendered with the
empty-string default.  A bucket is never empty in the source (buckets are
created holding one message); on that unreachable case Python would raise
`IndexError` at `msgs[0]`, rendered here by skipping. -/
def ctcLoop (thread_owners : List (String × String)) (user_id : String)
    (all_messages : Bool) :
    List (String × List Message) → Nat → List Conversation × Nat
  | [], c => ([], c)
  | (thread_id, msgs) :: rest, c =>
    if ¬(msgs.any (fun m => m.sender.id = user_id)) ∧ ¬all_messages then
      ctcLoop thread_owners user_id all_messages rest c
    else
      -- Always include the original post
      let original_poster_id := (dictFind thread_owners thread_id).getD ""
      let original_post := msgs.find? (fun m => m.sender.id = original_poster_id)
      let msgs1 := match original_post with
        | some op => if op ∉ msgs then op :: msgs else msgs
        | none => msgs
      match msgs1 with
      | [] => ctcLoop thread_owners user_id all_messages rest c
      | m0 :: mrest =>
        let participants := sendersDict (m0 :: mrest)
        -- Use space_name for group slug
        let slug := slugify m0.space_name
        let conv : Conversation :=
          { id := "group-thread-" ++ slug ++ "-" ++ Nat.repr c,
            space_id := m0.space_id,
            space_type := m0.space_type,
            participants := participants.map Prod.snd,
            messages := m0 :: mrest,
            start_time := m0.timestamp,
            end_time := (mrest.getLastD m0).timestamp,
            duration_seconds := (mrest.getLastD m0).timestamp - m0.timestamp,
            is_threaded := true }
        let r := ctcLoop thread_owners user_id all_messages rest (c + 1)
        (conv :: r.1, r.2)

/-- `_create_thread_conversations`: create one `Conversation` per thread the
user participated in (or all threads if `all_messages`), returning the
conversations and the next counter value. -/
def _create_thread_conversations (thread_conversations : List (String × List Message))
    (thread_owners : List (String × String)) (user_id : String)
    (conversation_id_start : Nat := 1) (all_messages : Bool := false) :
    List Conversation × Nat :=
  ctcLoop thread_owners user_id all_messages thread_conversations conversation_id_start

/-! ## `_group_non_threaded_messages` (`grouping.py` lines 202-254) -/

/-- Inner sweep of `_group_non_threaded_messages` (lines 228-236): walk
forward, *skipping* (without breaking) threaded messages, appending
unclaimed-window messages and breaking at the first message past
`window_end`. -/
def gntInner (wStart wEnd : Int) : List (Nat × Message) → List Message × List Nat
  | [] => ([], [])
  | (j, m2) :: rest =>
    if m2.thread.isSome then gntInner wStart wEnd rest
    else if wStart ≤ m2.timestamp ∧ m2.timestamp ≤ wEnd then
      let r := gntInner wStart wEnd rest
      (m2 :: r.1, j :: r.2)
    else if wEnd < m2.timestamp then ([], [])
    else gntInner wStart wEnd rest

/-- Outer loop of `_group_non_threaded_messages` (lines 217-253) over the
enumerated sorted messages, threading `used_indices` and the counter. -/
def gntOuter (cw : Int) (user_id : String) (all_messages : Bool) :
    List (Nat × Message) → List Nat → Nat → List Conversation
  | [], _, _ => []
  | (i, msg) :: rest, used, c =>
    if i ∈ used then gntOuter cw user_id all_messages rest used c
    else if msg.thread.isSome then gntOuter cw user_id all_messages rest used c
    else if msg.sender.id ≠ user_id ∧ ¬all_messages then
      gntOuter cw user_id all_messages rest used c
    else
      let wStart := msg.timestamp - cw
      let wEnd := msg.timestamp + cw
      let r := gntInner wStart wEnd rest
      let convo_msgs := msg :: r.1
      let participants := sendersDict convo_msgs
      let slug := slugify msg.space_name
      let conv : Conversation :=
        { id := "group-nonthread-" ++ slug ++ "-" ++ Nat.repr c,
          space_id := msg.space_id,
          space_type := msg.space_type,
          participants := participants.map Prod.snd,
          messages := convo_msgs,
          start_time := msg.timestamp,
          end_time := (r.1.getLastD msg).timestamp,
          duration_seconds := (r.1.getLastD msg).timestamp - msg.timestamp,
          is_threaded := false }
      conv :: gntOuter cw user_id all_messages rest (r.2 ++ i :: used) (c + 1)

/-- `_group_non_threaded_messages`: group non-threaded messages into
conversations using the context-window logic, honouring (and extending) the
`used_indices` set handed in by the caller. -/
def _group_non_threaded_messages (messages : List Message) (context_window : Int)
    (user_id : String) (used_indices : List Nat)
    (conversation_id_start : Nat := 1) (all_messages : Bool := false) :
    List Conversation :=
  gntOuter context_window user_id all_messages (sortMsgs messages).enum
    used_indices conversation_id_start

/-! ## `group_group_conversations` (`grouping.py` lines 257-315) -/

/-- The per-space body of `group_group_conversations`: sort the space's
messages, apply the participation gate, emit threaded conversations, mark
every threaded message's index as used, then emit non-threaded
conversations, threading the counter across spaces. -/
def ggcSpaces (context_window : Int) (user_id : String) (all_messages : Bool) :
    List (String × List Message) → Nat → List Conversation
  | [], _ => []
  | (_, space_messages) :: rest, c =>
    let sorted := sortMsgs space_messages
    if ¬(sorted.any (fun m => m.sender.id = user_id)) ∧ ¬all_messages then
      ggcSpaces context_window user_id all_messages rest c
    else
      let tc := _group_threaded_messages sorted
      let r := _create_thread_conversations tc.1 tc.2 user_id c all_messages
      let used0 := (sorted.enum.filter (fun p => p.2.thread.isSome)).map Prod.fst
      let nonthread := _group_non_threaded_messages sorted context_window user_id
        used0 r.2 all_messages
      r.1 ++ nonthread ++
        ggcSpaces context_window user_id all_messages rest (r.2 + nonthread.length)

/-- `group_group_conversations`: group messages in group spaces into
conversations (threaded first, then windowed non-threaded, per space). -/
def group_group_conversations (messages : List Message) (context_window : Int)
    (user_id : String) (all_messages : Bool := false) : List Conversation :=
  match messages with
  | [] => []
  | _ => ggcSpaces context_window user_id all_messages
      (group_messages_by_space messages) 1

/-! ## `group_all_conversations` (`grouping.py` lines 318-354) -/

/-- `group_all_conversations`: split the input by space type, run the DM
grouper on the DM messages and the group grouper on the group messages, and
concatenate (DM conversations first). -/
def group_all_conversations (messages : List Message) (context_window : Int)
    (user_id : String) (include_passive : Bool := false)
    (client : Option WebexClientModel := none) (all_messages : Bool := false)
    (cache : PersonCache := []) : Except PyErr (List Conversation) :=
  match messages with
  | [] => .ok []
  | _ =>
    let dms := messages.filter (fun m => m.space_type = SpaceType.DM)
    let groups := messages.filter (fun m => m.space_type = SpaceType.GROUP)
    let groupConvs := if groups.isEmpty then [] else
      group_group_conversations groups context_window user_id all_messages
    if dms.isEmpty then .ok ([] ++ groupConvs)
    else
      match group_dm_conversations dms context_window user_id include_passive
          client all_messages cache with
      | .error e => .error e
      | .ok (dmConvs, _) => .ok (dmConvs ++ groupConvs)

/-! ## Helper definitions used by the verification -/

/-- Numeric value of a decimal digit character. -/
def digitVal (c : Char) : Nat := c.toNat - 48

/-- Value of a decimal digit string (most significant digit first). -/
def digitsVal (l : List Char) : Nat := l.foldl (fun a c => 10 * a + digitVal c) 0

/-- The final hyphen-separated token of a character list: the maximal
`'-'`-free suffix. -/
def lastTok (l : List Char) : List Char :=
  (l.reverse.takeWhile (fun c => ¬(c = '-'))).reverse

/-- The timestamp-sortedness predicate for message lists. -/
def SortedTS (l : List Message) : Prop :=
  l.Pairwise (fun a b => a.timestamp ≤ b.timestamp)

/-- The no-two-adjacent-hyphens relation. -/
def NDD (a b : Char) : Prop := ¬(a = '-' ∧ b = '-')

/-- The `takeWhile` condition of the non-threaded sweep: keep walking while
the message is threaded (skipped) or still inside the window. -/
def gntKeep (wE : Int) (p : Nat × Message) : Bool :=
  p.2.thread.isSome || decide (p.2.timestamp ≤ wE)

/-- The collected part of the non-threaded sweep. -/
def gntPre (wE : Int) (rest : List (Nat × Message)) : List (Nat × Message) :=
  (rest.takeWhile (gntKeep wE)).filter (fun p => p.2.thread.isNone)

/-- The ids of a conversation list arise from a monotonically increasing
counter: each id is `stem ++ "-" ++ Nat.repr n`, and the counters of
consecutive conversations are `c, c + 1, ...`. -/
def CounterIds (c : Nat) (convs : List Conversation) : Prop :=
  ∃ L : List (String × Nat),
    convs.map Conversation.id = L.map (fun sn => sn.1 ++ "-" ++ Nat.repr sn.2) ∧
    L.map Prod.snd = List.range' c L.length

/-- Does the message carry a `thread` whose id is `k`? -/
def hasThreadId (k : String) (m : Message) : Bool :=
  match m.thread with
  | some t => decide (t.id = k)
  | none => false

/-- Invariant of the key-bucketing folds (`group_messages_by_space` and
`_group_threaded_messages`): keys are distinct, every bucket is the filter
of the processed messages by its key, and a key is present exactly when some
processed message matches it. -/
def DictInv (p : String → Message → Bool) (done : List Message)
    (d : List (String × List Message)) : Prop :=
  (d.map Prod.fst).Nodup ∧
  (∀ e ∈ d, e.2 = done.filter (fun m => p e.1 m)) ∧
  (∀ k, dictHasKey d k = true ↔ done.filter (fun m => p k m) ≠ [])

/-! ## Concrete inputs used by the witness theorems -/

/-- A user appearing in the witness scenarios. -/
def userA : User := { id := "u1", display_name := "Alice" }

/-- A second user appearing in the witness scenarios. -/
def userB : User := { id := "u2", display_name := "Bob" }

/-- A thread rooted at `userB`'s group message. -/
def thrW : Thread := { id := "t1", original_post_id := "mg1", original_poster := userB }

/-- Witness DM message from `userA`. -/
def mdW1 : Message :=
  { id := "md1", space_id := "sd", space_type := SpaceType.DM, space_name := "Bob",
    sender := userA, recipients := [userB], timestamp := 0, content := "hi" }

/-- Witness DM reply from `userB`, 100 seconds later. -/
def mdW2 : Message :=
  { id := "md2", space_id := "sd", space_type := SpaceType.DM, space_name := "Bob",
    sender := userB, recipients := [userA], timestamp := 100, content := "hello" }

/-- Witness threaded group message (thread root, by `userB`). -/
def mgW1 : Message :=
  { id := "mg1", space_id := "sg", space_type := SpaceType.GROUP,
    space_name := "Team Space", sender := userB, recipients := [], timestamp := 0,
    content := "root", thread := some thrW }

/-- Witness threaded group reply by `userA`. -/
def mgW2 : Message :=
  { id := "mg2", space_id := "sg", space_type := SpaceType.GROUP,
    space_name := "Team Space", sender := userA, recipients := [], timestamp := 50,
    content := "reply", thread := some thrW }

/-- Witness non-threaded group message by `userA`, outside the window of the
thread. -/
def mgW3 : Message :=
  { id := "mg3", space_id := "sg", space_type := SpaceType.GROUP,
    space_name := "Team Space", sender := userA, recipients := [], timestamp := 2000,
    content := "aside" }

/-- The witness message list: one DM space and one group space, exercising
all three conversation families. -/
def wMsgs : List Message := [mdW1, mdW2, mgW1, mgW2, mgW3]

/-- The conversations produced on the witness input with a 900-second
window, user `u1`, no collaborator and both flags off. -/
def wConvs : List Conversation :=
  match group_all_conversations wMsgs 900 "u1" false none false [] with
  | .ok convs => convs
  | .error _ => []

/-- A group-space message sent by `userB` only: `u1` sent nothing in space
`sg`, so the participation gate must drop the space. -/
def mgV : Message :=
  { id := "mv1", space_id := "sg", space_type := SpaceType.GROUP,
    space_name := "Team Space", sender := userB, recipients := [], timestamp := 0,
    content := "solo" }

/-- Witness collaborator: the membership listing succeeds with one
counterpart (so the fallback exercised is the failing in-`try` import, not
a listing error or a missing counterpart), and the person lookup — which
the program can never reach — would 404. -/
def clW : WebexClientModel :=
  { membershipsList := fun _ => .ok [{ personId := "u2" }],
    peopleGet := fun _ => .error (.apiError "404 Not Found") }

/-! ## Facts about `Nat.repr` -/

theorem digitVal_digitChar {k : Nat} (h : k < 10) :
    digitVal (Nat.digitChar k) = k := by
  interval_cases k <;> rfl

theorem digitChar_ne_dash {k : Nat} (h : k < 10) : Nat.digitChar k ≠ '-' := by
  interval_cases k <;> decide

theorem toDigitsCore_spec :
    ∀ (fuel n : Nat) (ds : List Char), n < fuel →
    ∃ ys, Nat.toDigitsCore 10 fuel n ds = ys ++ ds ∧ ys ≠ [] ∧
      (∀ c ∈ ys, ∃ k, k < 10 ∧ c = Nat.digitChar k) ∧ digitsVal ys = n := by
  intro fuel
  induction fuel with
  | zero => intro n ds h; omega
  | succ f ih =>
    intro n ds h
    rw [Nat.toDigitsCore]
    by_cases h10 : n / 10 = 0
    · refine ⟨[Nat.digitChar (n % 10)], by simp [h10], by simp, ?_, ?_⟩
      · intro c hc
        simp only [List.mem_singleton] at hc
        exact ⟨n % 10, Nat.mod_lt _ (by omega), hc⟩
      · have hn : n < 10 := by omega
        have : n % 10 = n := Nat.mod_eq_of_lt hn
        simp [digitsVal, this, digitVal_digitChar hn]
    · have hge : 10 ≤ n := by
        by_contra hc
        exact h10 (Nat.div_eq_of_lt (by omega))
      have hlt : n / 10 < f := by
        have := Nat.div_lt_self (by omega : 0 < n) (by omega : 1 < 10)
        omega
      obtain ⟨ys, hys, hne, hdig, hval⟩ := ih (n / 10) (Nat.digitChar (n % 10) :: ds) hlt
      refine ⟨ys ++ [Nat.digitChar (n % 10)], by simp [h10, hys], by simp, ?_, ?_⟩
      · intro c hc
        rcases List.mem_append.mp hc with hc | hc
        · exact hdig c hc
        · simp only [List.mem_singleton] at hc
          exact ⟨n % 10, Nat.mod_lt _ (by omega), hc⟩
      · have : digitsVal (ys ++ [Nat.digitChar (n % 10)]) =
            10 * digitsVal ys + digitVal (Nat.digitChar (n % 10)) := by
          simp [digitsVal, List.foldl_append]
        rw [this, hval, digitVal_digitChar (Nat.mod_lt _ (by omega))]
        omega

theorem repr_data_spec (n : Nat) :
    (Nat.repr n).data ≠ [] ∧
      (∀ c ∈ (Nat.repr n).data, ∃ k, k < 10 ∧ c = Nat.digitChar k) ∧
      digitsVal (Nat.repr n).data = n := by
  obtain ⟨ys, hys, hne, hdig, hval⟩ :=
    toDigitsCore_spec (n + 1) n [] (Nat.lt_succ_self n)
  have : (Nat.repr n).data = ys := by
    simp only [Nat.repr, Nat.toDigits, List.asString, hys, List.append_nil]
  rw [this]
  exact ⟨hne, hdig, hval⟩

theorem repr_no_dash (n : Nat) : ∀ c ∈ (Nat.repr n).data, c ≠ '-' := by
  intro c hc
  obtain ⟨k, hk, rfl⟩ := (repr_data_spec n).2.1 c hc
  exact digitChar_ne_dash hk

theorem repr_data_injective {m n : Nat}
    (h : (Nat.repr m).data = (Nat.repr n).data) : m = n := by
  have hm := (repr_data_spec m).2.2
  have hn := (repr_data_spec n).2.2
  rw [h] at hm
  omega

/-! ## The final hyphen-separated token of a conversation id -/

theorem takeWhile_append_eq {p : Char → Bool} :
    ∀ (xs : List Char) (y : Char) (zs : List Char),
      (∀ x ∈ xs, p x = true) → p y = false →
      (xs ++ y :: zs).takeWhile p = xs := by
  intro xs y zs hxs hy
  induction xs with
  | nil => simp [List.takeWhile_cons, hy]
  | cons a as ih =>
    have ha : p a = true := hxs a (List.mem_cons_self _ _)
    simp only [List.cons_append, List.takeWhile_cons, ha, if_true]
    rw [ih (fun x hx => hxs x (List.mem_cons_of_mem _ hx))]

theorem lastTok_append (a t : List Char) (ht : ∀ c ∈ t, c ≠ '-') :
    lastTok (a ++ '-' :: t) = t := by
  unfold lastTok
  rw [List.reverse_append, List.reverse_cons, List.append_assoc]
  have : (t.reverse ++ (['-'] ++ a.reverse)) = t.reverse ++ '-' :: a.reverse := rfl
  rw [this, takeWhile_append_eq t.reverse '-' a.reverse
    (fun x hx => by simpa using ht x (List.mem_reverse.mp hx)) (by simp),
    List.reverse_reverse]

/-- Parsing the trailing counter out of an id of the form
`prefixAndSlug ++ "-" ++ Nat.repr n`. -/
theorem lastTok_id (a : String) (n : Nat) :
    lastTok (a ++ "-" ++ Nat.repr n).data = (Nat.repr n).data := by
  have : (a ++ "-" ++ Nat.repr n).data = a.data ++ '-' :: (Nat.repr n).data := by
    simp [String.data_append]
  rw [this, lastTok_append _ _ (repr_no_dash n)]

/-- Two ids with the same trailing-counter shape and different counters are
different strings. -/
theorem id_ne_of_counter_ne {a b : String} {m n : Nat} (h : m ≠ n) :
    a ++ "-" ++ Nat.repr m ≠ b ++ "-" ++ Nat.repr n := by
  intro he
  apply h
  apply repr_data_injective
  have := congrArg (fun s : String => lastTok s.data) he
  simpa only [lastTok_id] using this

/-! ## Facts about `slugify` -/

theorem subNonAlnum_alphabet :
    ∀ (st : Bool) (l : List Char), ∀ c ∈ subNonAlnum st l,
      isSlugChar c = true ∨ c = '-' := by
  intro st l
  induction l generalizing st with
  | nil => simp [subNonAlnum]
  | cons a as ih =>
    intro c hc
    by_cases ha : isSlugChar a
    · simp only [subNonAlnum, ha, if_true, List.mem_cons] at hc
      rcases hc with rfl | hc
      · exact Or.inl ha
      · exact ih false c hc
    · simp only [subNonAlnum, ha, Bool.false_eq_true, if_false] at hc
      by_cases hst : st
      · subst hst
        simp only [if_true] at hc
        exact ih true c hc
      · simp only [Bool.not_eq_true] at hst
        subst hst
        simp only [Bool.false_eq_true, if_false, List.mem_cons] at hc
        rcases hc with rfl | hc
        · exact Or.inr rfl
        · exact ih true c hc

theorem subDashRuns_subset :
    ∀ (st : Bool) (l : List Char), ∀ c ∈ subDashRuns st l, c ∈ l := by
  intro st l
  induction l generalizing st with
  | nil => simp [subDashRuns]
  | cons a as ih =>
    intro c hc
    by_cases ha : a = '-'
    · subst ha
      simp only [subDashRuns, if_true] at hc
      by_cases hst : st
      · subst hst
        simp only [if_true] at hc
        exact List.mem_cons_of_mem _ (ih true c hc)
      · simp only [Bool.not_eq_true] at hst
        subst hst
        simp only [Bool.false_eq_true, if_false, List.mem_cons] at hc
        rcases hc with rfl | hc
        · exact List.mem_cons_self _ _
        · exact List.mem_cons_of_mem _ (ih true c hc)
    · simp only [subDashRuns, ha, if_false, List.mem_cons] at hc
      rcases hc with rfl | hc
      · exact List.mem_cons_self _ _
      · exact List.mem_cons_of_mem _ (ih false c hc)

theorem stripDashes_subset (l : List Char) : ∀ c ∈ stripDashes l, c ∈ l := by
  intro c hc
  unfold stripDashes at hc
  rw [List.mem_reverse] at hc
  have hsub :
      List.Sublist ((l.dropWhile (fun c => c = '-')).reverse.dropWhile (fun c => c = '-'))
        ((l.dropWhile (fun c => c = '-')).reverse) :=
    List.dropWhile_sublist (fun c => c = '-')
  have h1 := hsub.subset hc
  rw [List.mem_reverse] at h1
  exact (List.dropWhile_sublist (fun c => c = '-')).subset h1

theorem subDashRuns_chain :
    ∀ (st : Bool) (l : List Char),
      (subDashRuns st l).Chain' NDD ∧
      (st = true → (subDashRuns st l).head? ≠ some '-') := by
  intro st l
  induction l generalizing st with
  | nil => simp [subDashRuns]
  | cons a as ih =>
    by_cases ha : a = '-'
    · subst ha
      by_cases hst : st
      · subst hst
        simpa only [subDashRuns, if_true] using ih true
      · simp only [Bool.not_eq_true] at hst
        subst hst
        simp only [subDashRuns, if_true, Bool.false_eq_true, if_false]
        obtain ⟨hch, hhd⟩ := ih true
        refine ⟨?_, fun h => h.elim⟩
        rw [List.chain'_cons']
        refine ⟨?_, hch⟩
        intro y hy hcon
        exact hhd rfl (by rw [hy, hcon.2])
    · simp only [subDashRuns, ha, if_false]
      obtain ⟨hch, _⟩ := ih false
      constructor
      · rw [List.chain'_cons']
        exact ⟨fun y _ hcon => ha hcon.1, hch⟩
      · intro _
        simp only [List.head?_cons]
        exact fun h => ha (Option.some.inj h)

theorem chain_NDD_flip {l : List Char} (h : l.Chain' NDD) :
    l.reverse.Chain' NDD := by
  rw [List.chain'_reverse]
  exact h.imp (fun {a b} hab hcon => hab ⟨hcon.2, hcon.1⟩)

theorem stripDashes_chain {l : List Char} (h : l.Chain' NDD) :
    (stripDashes l).Chain' NDD := by
  unfold stripDashes
  apply chain_NDD_flip
  exact (chain_NDD_flip (h.suffix (List.dropWhile_suffix _))).suffix
    (List.dropWhile_suffix _)

theorem head?_dropWhile_ne (l : List Char) :
    (l.dropWhile (fun c => c = '-')).head? ≠ some '-' := by
  intro hc
  have h := List.head?_dropWhile_not (fun c : Char => c = '-') l
  rw [hc] at h
  simp at h

theorem head?_of_isPre {x y : List Char} (h : x <+: y) (hx : x ≠ []) :
    x.head? = y.head? := by
  obtain ⟨t, rfl⟩ := h
  cases x with
  | nil => exact absurd rfl hx
  | cons a as => rfl

theorem head?_stripDashes (l : List Char) :
    (stripDashes l).head? ≠ some '-' := by
  unfold stripDashes
  by_cases hne :
      ((l.dropWhile (fun c => c = '-')).reverse.dropWhile (fun c => c = '-')).reverse = []
  · rw [hne]
    simp
  · have hpre :
        ((l.dropWhile (fun c => c = '-')).reverse.dropWhile (fun c => c = '-')).reverse <+:
          l.dropWhile (fun c => c = '-') := by
      have hsfx :
          ((l.dropWhile (fun c => c = '-')).reverse.dropWhile (fun c => c = '-')) <:+
            (l.dropWhile (fun c => c = '-')).reverse :=
        List.dropWhile_suffix _
      have h := List.reverse_prefix.mpr hsfx
      rwa [List.reverse_reverse] at h
    rw [head?_of_isPre hpre hne]
    exact head?_dropWhile_ne l

theorem getLast?_stripDashes (l : List Char) :
    (stripDashes l).getLast? ≠ some '-' := by
  unfold stripDashes
  rw [List.getLast?_reverse]
  exact head?_dropWhile_ne _

theorem toLower_fix {c : Char} (h : isSlugChar c = true ∨ c = '-') :
    Char.toLower c = c := by
  unfold Char.toLower
  rw [if_neg]
  intro hcon
  rcases h with h | rfl
  · simp only [isSlugChar, decide_eq_true_eq] at h
    omega
  · have : ('-' : Char).toNat = 45 := by decide
    omega

theorem subNonAlnum_fix :
    ∀ (l : List Char) (st : Bool),
      (∀ c ∈ l, isSlugChar c = true ∨ c = '-') → l.Chain' NDD →
      (st = true → l.head? ≠ some '-') → subNonAlnum st l = l := by
  intro l
  induction l with
  | nil => intro st _ _ _; rfl
  | cons a as ih =>
    intro st halpha hch hhd
    rcases halpha a (List.mem_cons_self _ _) with ha | rfl
    · simp only [subNonAlnum, ha, if_true]
      rw [ih false (fun c hc => halpha c (List.mem_cons_of_mem _ hc)) hch.tail
        (fun h => absurd h (by simp))]
    · have hna : isSlugChar '-' = false := by decide
      cases st with
      | true => exact (hhd rfl rfl).elim
      | false =>
        simp only [subNonAlnum, hna, Bool.false_eq_true, if_false]
        rw [List.chain'_cons'] at hch
        rw [ih true (fun c hc => halpha c (List.mem_cons_of_mem _ hc)) hch.2 ?_]
        intro _ hcon
        rcases h : as.head? with _ | c
        · rw [h] at hcon; exact Option.noConfusion hcon
        · rw [h] at hcon
          exact hch.1 c h ⟨rfl, Option.some.inj hcon⟩

theorem subDashRuns_fix :
    ∀ (l : List Char) (st : Bool), l.Chain' NDD →
      (st = true → l.head? ≠ some '-') → subDashRuns st l = l := by
  intro l
  induction l with
  | nil => intro st _ _; rfl
  | cons a as ih =>
    intro st hch hhd
    by_cases ha : a = '-'
    · subst ha
      cases st with
      | true => exact (hhd rfl rfl).elim
      | false =>
        simp only [subDashRuns, if_true, Bool.false_eq_true, if_false]
        rw [List.chain'_cons'] at hch
        rw [ih true hch.2 ?_]
        intro _ hcon
        rcases h : as.head? with _ | c
        · rw [h] at hcon; exact Option.noConfusion hcon
        · rw [h] at hcon
          exact hch.1 c h ⟨rfl, Option.some.inj hcon⟩
    · simp only [subDashRuns, ha, if_false]
      rw [ih false hch.tail (fun h => absurd h (by simp))]

theorem stripDashes_fix {l : List Char} (h1 : l.head? ≠ some '-')
    (h2 : l.getLast? ≠ some '-') : stripDashes l = l := by
  unfold stripDashes
  have d1 : l.dropWhile (fun c => c = '-') = l := by
    cases l with
    | nil => rfl
    | cons a as =>
      rw [List.dropWhile_cons, if_neg]
      simp only [List.head?_cons] at h1
      simp only [decide_eq_true_eq]
      exact fun h => h1 (by rw [h])
  rw [d1]
  have d2 : l.reverse.dropWhile (fun c => c = '-') = l.reverse := by
    cases hr : l.reverse with
    | nil => rfl
    | cons a as =>
      rw [List.dropWhile_cons, if_neg]
      have : l.reverse.head? = some a := by rw [hr]; rfl
      rw [List.head?_reverse] at this
      simp only [decide_eq_true_eq]
      exact fun h => h2 (h ▸ this)
  rw [d2, List.reverse_reverse]

/-- **C10.** For every input string, `slugify` returns a string containing
only lowercase ASCII letters (codepoints 97-122), digits (48-57), and single
hyphens — no leading or trailing hyphen and no two consecutive hyphens —
possibly the empty string; and `slugify` is idempotent:
`slugify (slugify s) = slugify s`. -/
theorem slugify_alphabet_and_idempotent (s : String) :
    (∀ c ∈ (slugify s).data, isSlugChar c = true ∨ c = '-') ∧
    (slugify s).data.head? ≠ some '-' ∧
    (slugify s).data.getLast? ≠ some '-' ∧
    (slugify s).data.Chain' NDD ∧
    slugify (slugify s) = slugify s := by
  have hdata : (slugify s).data =
      stripDashes (subDashRuns false (subNonAlnum false (s.data.map Char.toLower))) := rfl
  have halpha : ∀ c ∈ (slugify s).data, isSlugChar c = true ∨ c = '-' := by
    intro c hc
    rw [hdata] at hc
    exact subNonAlnum_alphabet false _ c
      (subDashRuns_subset false _ c (stripDashes_subset _ c hc))
  have hchain : (slugify s).data.Chain' NDD := by
    rw [hdata]
    exact stripDashes_chain (subDashRuns_chain false _).1
  have hhd : (slugify s).data.head? ≠ some '-' := by
    rw [hdata]; exact head?_stripDashes _
  have hlast : (slugify s).data.getLast? ≠ some '-' := by
    rw [hdata]; exact getLast?_stripDashes _
  refine ⟨halpha, hhd, hlast, hchain, ?_⟩
  show String.mk (stripDashes (subDashRuns false
    (subNonAlnum false ((slugify s).data.map Char.toLower)))) = slugify s
  have hmap : (slugify s).data.map Char.toLower = (slugify s).data := by
    have h1 : (slugify s).data.map Char.toLower = (slugify s).data.map id :=
      List.map_congr_left (fun a ha => toLower_fix (halpha a ha))
    rw [h1, List.map_id]
  rw [hmap, subNonAlnum_fix _ false halpha hchain (fun h => absurd h (by simp)),
    subDashRuns_fix _ false hchain (fun h => absurd h (by simp)),
    stripDashes_fix hhd hlast]

/-! ## C9: the two bypass flags are interchangeable for windowing -/

theorem fcwOuter_flags (cw : Int) (uid : String) :
    ∀ (ps : List (Nat × Message)) (used : List Nat),
      fcwOuter cw uid true false ps used = fcwOuter cw uid false true ps used := by
  intro ps
  induction ps with
  | nil => intro used; rfl
  | cons p rest ih =>
    intro used
    obtain ⟨i, msg⟩ := p
    simp only [fcwOuter, not_true, not_false_iff, and_false, false_and, and_true,
      if_false]
    by_cases hi : i ∈ used
    · simp only [hi, if_true]
      exact ih used
    · simp only [hi, if_false]
      rw [ih]

/-- **C9.** The flags `include_passive` and `all_messages` are
interchangeable for windowing: for every message list, context window and
user id, `find_conversation_windows` returns the same windows for
`include_passive=True, all_messages=False` as for
`include_passive=False, all_messages=True`, because the seed test
only disqualifies a message when it is not sent by the user AND both flags
are false. -/
theorem find_conversation_windows_flag_equiv (space_messages : List Message)
    (context_window : Int) (user_id : String) :
    find_conversation_windows space_messages context_window user_id true false =
      find_conversation_windows space_messages context_window user_id false true := by
  unfold find_conversation_windows
  exact fcwOuter_flags context_window user_id _ _

/-! ## Facts about sorting and enumeration -/

theorem insertTS_perm (m : Message) (l : List Message) :
    (insertTS m l).Perm (m :: l) := by
  induction l with
  | nil => exact List.Perm.refl _
  | cons a l ih =>
    unfold insertTS
    by_cases h : leTS m a
    · rw [if_pos h]
    · rw [if_neg h]
      exact (ih.cons a).trans (List.Perm.swap m a l)

theorem sortMsgs_perm (l : List Message) : (sortMsgs l).Perm l := by
  induction l with
  | nil => exact List.Perm.refl _
  | cons a l ih =>
    exact (insertTS_perm a (sortMsgs l)).trans (ih.cons a)

theorem insertTS_sorted {m : Message} {l : List Message} (h : SortedTS l) :
    SortedTS (insertTS m l) := by
  induction l with
  | nil =>
    show List.Pairwise (fun a b : Message => a.timestamp ≤ b.timestamp) [m]
    exact List.pairwise_singleton _ _
  | cons a l ih =>
    have hal : List.Pairwise (fun a b : Message => a.timestamp ≤ b.timestamp)
        (a :: l) := h
    have hhead := (List.pairwise_cons.mp hal).1
    have htail : SortedTS l := (List.pairwise_cons.mp hal).2
    unfold insertTS
    by_cases hc : leTS m a
    · rw [if_pos hc]
      have hma : m.timestamp ≤ a.timestamp := by
        have := hc
        simp only [leTS, decide_eq_true_eq] at this
        exact this
      show List.Pairwise (fun a b : Message => a.timestamp ≤ b.timestamp)
        (m :: a :: l)
      refine List.pairwise_cons.mpr ⟨?_, hal⟩
      intro x hx
      rcases List.mem_cons.mp hx with rfl | hx
      · exact hma
      · exact le_trans hma (hhead x hx)
    · rw [if_neg hc]
      have ham : a.timestamp ≤ m.timestamp := by
        have : ¬(leTS m a = true) := hc
        simp only [leTS, decide_eq_true_eq] at this
        omega
      show List.Pairwise (fun a b : Message => a.timestamp ≤ b.timestamp)
        (a :: insertTS m l)
      refine List.pairwise_cons.mpr ⟨?_, ih htail⟩
      intro x hx
      rcases List.mem_cons.mp ((insertTS_perm m l).mem_iff.mp hx) with rfl | hx
      · exact ham
      · exact hhead x hx

theorem sortMsgs_sorted (l : List Message) : SortedTS (sortMsgs l) := by
  induction l with
  | nil =>
    show List.Pairwise (fun a b : Message => a.timestamp ≤ b.timestamp) []
    exact List.Pairwise.nil
  | cons a l ih => exact insertTS_sorted ih

theorem insertTS_of_le {m : Message} {l : List Message}
    (h : ∀ x ∈ l, m.timestamp ≤ x.timestamp) : insertTS m l = m :: l := by
  cases l with
  | nil => rfl
  | cons a l =>
    unfold insertTS
    rw [if_pos]
    show leTS m a = true
    simp only [leTS, decide_eq_true_eq]
    exact h a (List.mem_cons_self _ _)

theorem sortMsgs_of_sorted {l : List Message} (h : SortedTS l) : sortMsgs l = l := by
  induction l with
  | nil => rfl
  | cons a l ih =>
    have hal : List.Pairwise (fun a b : Message => a.timestamp ≤ b.timestamp)
        (a :: l) := h
    have htail : SortedTS l := (List.pairwise_cons.mp hal).2
    show insertTS a (sortMsgs l) = a :: l
    rw [ih htail]
    exact insertTS_of_le (List.pairwise_cons.mp hal).1

theorem sortMsgs_idem (l : List Message) : sortMsgs (sortMsgs l) = sortMsgs l :=
  sortMsgs_of_sorted (sortMsgs_sorted l)

/-- Timestamp-sortedness carries over to the enumerated list. -/
theorem enum_sorted {l : List Message} (h : SortedTS l) :
    l.enum.Pairwise (fun p q : Nat × Message => p.2.timestamp ≤ q.2.timestamp) := by
  have hm : (l.enum.map Prod.snd).Pairwise
      (fun a b : Message => a.timestamp ≤ b.timestamp) := by
    rw [List.enum_map_snd]
    exact h
  exact List.Pairwise.of_map Prod.snd (fun a b hab => hab) hm

/-- The indices of an enumerated list are distinct. -/
theorem enum_fst_nodup (l : List Message) : (l.enum.map Prod.fst).Nodup := by
  rw [List.enum_map_fst]
  exact List.nodup_range _

/-! ## Characterisation of the inner sweeps

On a timestamp-sorted suffix, every message either lies above `window_start`
or beyond `window_end` (depending on the sign of the context window), so the
skip-without-breaking branch of the inner loop is unreachable and the sweep
collects exactly the `takeWhile`-prefix below `window_end`. -/

theorem fcwInner_cons_take {wS wE : Int} {j : Nat} {m : Message}
    {rest : List (Nat × Message)} (h1 : wS ≤ m.timestamp) (h2 : m.timestamp ≤ wE) :
    fcwInner wS wE ((j, m) :: rest) =
      ((m :: (fcwInner wS wE rest).1, j :: (fcwInner wS wE rest).2)) := by
  simp [fcwInner, h1, h2]

theorem fcwInner_cons_stop {wS wE : Int} {j : Nat} {m : Message}
    {rest : List (Nat × Message)} (h : wE < m.timestamp) :
    fcwInner wS wE ((j, m) :: rest) = ([], []) := by
  have hno : ¬(wS ≤ m.timestamp ∧ m.timestamp ≤ wE) := by omega
  simp [fcwInner, hno, h]

theorem fcwInner_eq (wS wE : Int) :
    ∀ (rest : List (Nat × Message)),
      (∀ p ∈ rest, wS ≤ p.2.timestamp ∨ wE < p.2.timestamp) →
      fcwInner wS wE rest =
        ((rest.takeWhile (fun p => p.2.timestamp ≤ wE)).map Prod.snd,
         (rest.takeWhile (fun p => p.2.timestamp ≤ wE)).map Prod.fst) := by
  intro rest
  induction rest with
  | nil => intro _; rfl
  | cons p rest ih =>
    intro h
    obtain ⟨j, m⟩ := p
    have hd : wS ≤ m.timestamp ∨ wE < m.timestamp := h (j, m) (List.mem_cons_self _ _)
    by_cases hle : m.timestamp ≤ wE
    · have hws : wS ≤ m.timestamp := by omega
      have hp : (decide (m.timestamp ≤ wE)) = true := by simp [hle]
      rw [fcwInner_cons_take hws hle, ih (fun q hq => h q (List.mem_cons_of_mem _ hq))]
      simp only [List.takeWhile_cons]
      rw [hp]
      simp
    · have hgt : wE < m.timestamp := by omega
      have hp : (decide (m.timestamp ≤ wE)) = false := by simp [hle]
      rw [fcwInner_cons_stop hgt]
      simp only [List.takeWhile_cons]
      rw [hp]
      simp

theorem gntInner_cons_skip {wS wE : Int} {j : Nat} {m : Message}
    {rest : List (Nat × Message)} (h : m.thread.isSome) :
    gntInner wS wE ((j, m) :: rest) = gntInner wS wE rest := by
  simp [gntInner, h]

theorem gntInner_cons_take {wS wE : Int} {j : Nat} {m : Message}
    {rest : List (Nat × Message)} (h0 : m.thread = none) (h1 : wS ≤ m.timestamp)
    (h2 : m.timestamp ≤ wE) :
    gntInner wS wE ((j, m) :: rest) =
      ((m :: (gntInner wS wE rest).1, j :: (gntInner wS wE rest).2)) := by
  have : m.thread.isSome = false := by rw [h0]; rfl
  simp [gntInner, this, h1, h2]

theorem gntInner_cons_stop {wS wE : Int} {j : Nat} {m : Message}
    {rest : List (Nat × Message)} (h0 : m.thread = none) (h : wE < m.timestamp) :
    gntInner wS wE ((j, m) :: rest) = ([], []) := by
  have hs : m.thread.isSome = false := by rw [h0]; rfl
  have hno : ¬(wS ≤ m.timestamp ∧ m.timestamp ≤ wE) := by omega
  simp [gntInner, hs, hno, h]

theorem gntInner_eq (wS wE : Int) :
    ∀ (rest : List (Nat × Message)),
      (∀ p ∈ rest, p.2.thread = none → wS ≤ p.2.timestamp ∨ wE < p.2.timestamp) →
      gntInner wS wE rest =
        ((gntPre wE rest).map Prod.snd, (gntPre wE rest).map Prod.fst) := by
  intro rest
  induction rest with
  | nil => intro _; rfl
  | cons p rest ih =>
    intro h
    obtain ⟨j, m⟩ := p
    by_cases hth : m.thread.isSome
    · have hnone : m.thread.isNone = false := by
        rcases hm : m.thread with _ | t
        · rw [hm] at hth; exact absurd hth (by simp)
        · rfl
      rw [gntInner_cons_skip hth, ih (fun q hq hq2 => h q (List.mem_cons_of_mem _ hq) hq2)]
      simp only [gntPre, gntKeep, List.takeWhile_cons, hth, Bool.true_or, if_true,
        List.filter_cons, hnone, Bool.false_eq_true, if_false]
    · have hnone : m.thread = none := by
        rcases hm : m.thread with _ | t
        · rfl
        · rw [hm] at hth; exact absurd rfl hth
      have hisnone : m.thread.isNone = true := by rw [hnone]; rfl
      have hthf : m.thread.isSome = false := by rw [hnone]; rfl
      have hd : wS ≤ m.timestamp ∨ wE < m.timestamp :=
        h (j, m) (List.mem_cons_self _ _) hnone
      by_cases hle : m.timestamp ≤ wE
      · have hws : wS ≤ m.timestamp := by omega
        rw [gntInner_cons_take hnone hws hle,
          ih (fun q hq hq2 => h q (List.mem_cons_of_mem _ hq) hq2)]
        have hp : (decide (m.timestamp ≤ wE)) = true := by simp [hle]
        simp only [gntPre, gntKeep, List.takeWhile_cons, hthf, hp, Bool.false_or,
          if_true, List.filter_cons, hisnone, if_pos, List.map_cons]
      · have hgt : wE < m.timestamp := by omega
        rw [gntInner_cons_stop hnone hgt]
        have hp : (decide (m.timestamp ≤ wE)) = false := by simp [hle]
        simp only [gntPre, gntKeep, List.takeWhile_cons, hthf, hp, Bool.false_or,
          Bool.false_eq_true, if_false, List.filter_nil, List.map_nil]

/-! ## Structure of the outer windowing loop -/

theorem fcwOuter_cons_used {cw : Int} {uid : String} {ip am : Bool} {i : Nat}
    {msg : Message} {rest : List (Nat × Message)} {used : List Nat}
    (hi : i ∈ used) :
    fcwOuter cw uid ip am ((i, msg) :: rest) used = fcwOuter cw uid ip am rest used := by
  simp [fcwOuter, hi]

theorem fcwOuter_cons_skip {cw : Int} {uid : String} {ip am : Bool} {i : Nat}
    {msg : Message} {rest : List (Nat × Message)} {used : List Nat}
    (hi : i ∉ used) (ht : ¬(msg.sender.id = uid) ∧ ¬ip ∧ ¬am) :
    fcwOuter cw uid ip am ((i, msg) :: rest) used = fcwOuter cw uid ip am rest used := by
  simp only [fcwOuter, if_neg hi, if_pos ht]

theorem fcwOuter_cons_seed {cw : Int} {uid : String} {ip am : Bool} {i : Nat}
    {msg : Message} {rest : List (Nat × Message)} {used : List Nat}
    (hi : i ∉ used) (ht : ¬(¬(msg.sender.id = uid) ∧ ¬ip ∧ ¬am)) :
    fcwOuter cw uid ip am ((i, msg) :: rest) used =
      (msg :: (fcwInner (msg.timestamp - cw) (msg.timestamp + cw) rest).1) ::
        fcwOuter cw uid ip am rest
          ((fcwInner (msg.timestamp - cw) (msg.timestamp + cw) rest).2 ++ i :: used) := by
  simp only [fcwOuter, if_neg hi, if_neg ht]

/-- On a timestamp-sorted suffix, the sweep hypothesis of `fcwInner_eq` holds
for a seed at the head. -/
theorem seed_sweep_hyp {msg : Message} {rest : List (Nat × Message)} (cw : Int)
    (hh : ∀ q ∈ rest, msg.timestamp ≤ q.2.timestamp) :
    ∀ p ∈ rest, msg.timestamp - cw ≤ p.2.timestamp ∨
      msg.timestamp + cw < p.2.timestamp := by
  intro p hp
  have := hh p hp
  omega

/-- Master no-double-claiming lemma for the windowing loop: when the indices
already claimed form (on the remaining suffix `ps`) an initial segment `a`
of `ps`, the flattened output is a sublist of the unclaimed part `b`. -/
theorem fcwOuter_flatten_sublist (cw : Int) (uid : String) (ip am : Bool) :
    ∀ (ps : List (Nat × Message)) (used : List Nat) (a b : List (Nat × Message)),
      ps = a ++ b →
      (∀ p ∈ a, p.1 ∈ used) →
      (∀ p ∈ b, p.1 ∉ used) →
      ps.Pairwise (fun p q : Nat × Message => p.2.timestamp ≤ q.2.timestamp) →
      (ps.map Prod.fst).Nodup →
      List.Sublist ((fcwOuter cw uid ip am ps used).flatten) (b.map Prod.snd) := by
  intro ps
  induction ps with
  | nil =>
    intro used a b _ _ _ _ _
    simp [fcwOuter]
  | cons hd rest ih =>
    intro used a b hsplit ha hb hsort hnd
    obtain ⟨i, msg⟩ := hd
    by_cases hi : i ∈ used
    · rcases a with _ | ⟨a0, a'⟩
      · simp only [List.nil_append] at hsplit
        exact absurd hi (hb (i, msg) (hsplit ▸ List.mem_cons_self _ _))
      · simp only [List.cons_append, List.cons.injEq] at hsplit
        rw [fcwOuter_cons_used hi]
        exact ih used a' b hsplit.2 (fun p hp => ha p (List.mem_cons_of_mem _ hp)) hb
          hsort.of_cons (by
            simp only [List.map_cons] at hnd
            exact hnd.of_cons)
    · have haeq : a = [] := by
        rcases a with _ | ⟨a0, a'⟩
        · rfl
        · simp only [List.cons_append, List.cons.injEq] at hsplit
          have := ha a0 (List.mem_cons_self _ _)
          rw [← hsplit.1] at this
          exact absurd this hi
      subst haeq
      simp only [List.nil_append] at hsplit
      subst hsplit
      have hh : ∀ q ∈ rest, msg.timestamp ≤ q.2.timestamp := by
        intro q hq
        exact (List.pairwise_cons.mp hsort).1 q hq
      by_cases ht : ¬(msg.sender.id = uid) ∧ ¬ip ∧ ¬am
      · rw [fcwOuter_cons_skip hi ht]
        have := ih used [] rest rfl (by simp)
          (fun p hp => hb p (List.mem_cons_of_mem _ hp)) hsort.of_cons (by
            simp only [List.map_cons] at hnd
            exact hnd.of_cons)
        exact this.cons _
      · rw [fcwOuter_cons_seed hi ht,
          fcwInner_eq _ _ rest (seed_sweep_hyp cw hh)]
        set pre := rest.takeWhile
          (fun p : Nat × Message => decide (p.2.timestamp ≤ msg.timestamp + cw)) with hpre
        set post := rest.dropWhile
          (fun p : Nat × Message => decide (p.2.timestamp ≤ msg.timestamp + cw)) with hpost
        have hrestsplit : rest = pre ++ post :=
          (List.takeWhile_append_dropWhile _ _).symm
        have hndrest : (rest.map Prod.fst).Nodup ∧ i ∉ rest.map Prod.fst := by
          simp only [List.map_cons] at hnd
          exact ⟨hnd.of_cons, (List.nodup_cons.mp hnd).1⟩
        have hdisj : List.Disjoint (pre.map Prod.fst) (post.map Prod.fst) := by
          apply List.disjoint_of_nodup_append
          rw [← List.map_append, ← hrestsplit]
          exact hndrest.1
        have hrec := ih (pre.map Prod.fst ++ i :: used) pre post hrestsplit
          (fun p hp => List.mem_append_left _ (List.mem_map_of_mem Prod.fst hp))
          (fun p hp hmem => by
            rcases List.mem_append.mp hmem with hc | hc
            · exact hdisj hc (List.mem_map_of_mem Prod.fst hp)
            · rcases List.mem_cons.mp hc with hc | hc
              · apply hndrest.2
                rw [← hc]
                exact List.mem_map_of_mem Prod.fst (hrestsplit ▸ List.mem_append_right _ hp)
              · exact hb p (List.mem_cons_of_mem _ (hrestsplit ▸ List.mem_append_right _ hp)) hc)
          hsort.of_cons hndrest.1
        have htarget : ((i, msg) :: rest).map Prod.snd =
            msg :: (pre.map Prod.snd ++ post.map Prod.snd) := by
          rw [List.map_cons, hrestsplit, List.map_append]
        rw [htarget, List.flatten_cons]
        have : (msg :: pre.map Prod.snd) ++
            (fcwOuter cw uid ip am rest (pre.map Prod.fst ++ i :: used)).flatten =
            msg :: (pre.map Prod.snd ++
              (fcwOuter cw uid ip am rest (pre.map Prod.fst ++ i :: used)).flatten) := rfl
        rw [this]
        exact List.Sublist.cons₂ _ (hrec.append_left _)

/-- Structure of each emitted window: a seed followed by its forward sweep,
sorted, with every swept message inside `[seed.timestamp, seed.timestamp +
context_window]`, and all messages drawn from the processed suffix. -/
theorem fcwOuter_windows_spec (cw : Int) (uid : String) (ip am : Bool) :
    ∀ (ps : List (Nat × Message)) (used : List Nat),
      ps.Pairwise (fun p q : Nat × Message => p.2.timestamp ≤ q.2.timestamp) →
      ∀ w ∈ fcwOuter cw uid ip am ps used,
        ∃ msg tl, w = msg :: tl ∧
          (∀ m ∈ tl, msg.timestamp ≤ m.timestamp ∧
            m.timestamp ≤ msg.timestamp + cw) ∧
          SortedTS (msg :: tl) ∧
          (∀ m ∈ w, m ∈ ps.map Prod.snd) := by
  intro ps
  induction ps with
  | nil =>
    intro used _ w hw
    simp [fcwOuter] at hw
  | cons hd rest ih =>
    intro used hsort w hw
    obtain ⟨i, msg⟩ := hd
    have hh : ∀ q ∈ rest, msg.timestamp ≤ q.2.timestamp :=
      (List.pairwise_cons.mp hsort).1
    have hweaken : ∀ m : Message, m ∈ rest.map Prod.snd →
        m ∈ ((i, msg) :: rest).map Prod.snd := by
      intro m hm
      rw [List.map_cons]
      exact List.mem_cons_of_mem _ hm
    by_cases hi : i ∈ used
    · rw [fcwOuter_cons_used hi] at hw
      obtain ⟨m0, tl, h1, h2, h3, h4⟩ := ih used hsort.of_cons w hw
      exact ⟨m0, tl, h1, h2, h3, fun m hm => hweaken m (h4 m hm)⟩
    · by_cases ht : ¬(msg.sender.id = uid) ∧ ¬ip ∧ ¬am
      · rw [fcwOuter_cons_skip hi ht] at hw
        obtain ⟨m0, tl, h1, h2, h3, h4⟩ := ih used hsort.of_cons w hw
        exact ⟨m0, tl, h1, h2, h3, fun m hm => hweaken m (h4 m hm)⟩
      · rw [fcwOuter_cons_seed hi ht,
          fcwInner_eq _ _ rest (seed_sweep_hyp cw hh)] at hw
        set pre := rest.takeWhile
          (fun p : Nat × Message => decide (p.2.timestamp ≤ msg.timestamp + cw)) with hpre
        rcases List.mem_cons.mp hw with hw | hw
        · refine ⟨msg, pre.map Prod.snd, hw, ?_, ?_, ?_⟩
          · intro m hm
            obtain ⟨p, hp, rfl⟩ := List.mem_map.mp hm
            have hp' : p ∈ rest := (List.takeWhile_sublist _).mem hp
            refine ⟨hh p hp', ?_⟩
            have := List.mem_takeWhile_imp hp
            simpa using this
          · show (msg :: pre.map Prod.snd).Pairwise
                (fun a b : Message => a.timestamp ≤ b.timestamp)
            rw [List.pairwise_cons]
            constructor
            · intro m hm
              obtain ⟨p, hp, rfl⟩ := List.mem_map.mp hm
              exact hh p ((List.takeWhile_sublist _).mem hp)
            · have hrest : rest.Pairwise
                  (fun p q : Nat × Message => p.2.timestamp ≤ q.2.timestamp) :=
                hsort.of_cons
              have hpresorted : pre.Pairwise
                  (fun p q : Nat × Message => p.2.timestamp ≤ q.2.timestamp) :=
                hrest.sublist (List.takeWhile_sublist _)
              exact List.Pairwise.map Prod.snd (fun a b hab => hab) hpresorted
          · intro m hm
            rw [hw] at hm
            rcases List.mem_cons.mp hm with rfl | hm
            · rw [List.map_cons]
              exact List.mem_cons_self _ _
            · obtain ⟨p, hp, rfl⟩ := List.mem_map.mp hm
              exact hweaken _ (List.mem_map_of_mem _ ((List.takeWhile_sublist _).mem hp))
        · obtain ⟨m0, tl, h1, h2, h3, h4⟩ := ih _ hsort.of_cons w hw
          exact ⟨m0, tl, h1, h2, h3, fun m hm => hweaken m (h4 m hm)⟩

/-! ## Structure of the non-threaded grouping loop -/

theorem gntOuter_cons_used {cw : Int} {uid : String} {am : Bool} {i : Nat}
    {msg : Message} {rest : List (Nat × Message)} {used : List Nat} {c : Nat}
    (hi : i ∈ used) :
    gntOuter cw uid am ((i, msg) :: rest) used c = gntOuter cw uid am rest used c := by
  simp [gntOuter, hi]

theorem gntOuter_cons_thread {cw : Int} {uid : String} {am : Bool} {i : Nat}
    {msg : Message} {rest : List (Nat × Message)} {used : List Nat} {c : Nat}
    (hi : i ∉ used) (ht : msg.thread.isSome) :
    gntOuter cw uid am ((i, msg) :: rest) used c = gntOuter cw uid am rest used c := by
  simp only [gntOuter, if_neg hi, if_pos ht]

theorem gntOuter_cons_skip {cw : Int} {uid : String} {am : Bool} {i : Nat}
    {msg : Message} {rest : List (Nat × Message)} {used : List Nat} {c : Nat}
    (hi : i ∉ used) (ht : ¬msg.thread.isSome) (hs : msg.sender.id ≠ uid ∧ ¬am) :
    gntOuter cw uid am ((i, msg) :: rest) used c = gntOuter cw uid am rest used c := by
  simp only [gntOuter, if_neg hi, if_neg ht, if_pos hs]

theorem gntOuter_cons_seed {cw : Int} {uid : String} {am : Bool} {i : Nat}
    {msg : Message} {rest : List (Nat × Message)} {used : List Nat} {c : Nat}
    (hi : i ∉ used) (ht : ¬msg.thread.isSome) (hs : ¬(msg.sender.id ≠ uid ∧ ¬am)) :
    gntOuter cw uid am ((i, msg) :: rest) used c =
      { id := "group-nonthread-" ++ slugify msg.space_name ++ "-" ++ Nat.repr c,
        space_id := msg.space_id,
        space_type := msg.space_type,
        participants := (sendersDict
          (msg :: (gntInner (msg.timestamp - cw) (msg.timestamp + cw) rest).1)).map Prod.snd,
        messages := msg :: (gntInner (msg.timestamp - cw) (msg.timestamp + cw) rest).1,
        start_time := msg.timestamp,
        end_time := (((gntInner (msg.timestamp - cw) (msg.timestamp + cw) rest).1).getLastD
          msg).timestamp,
        duration_seconds := (((gntInner (msg.timestamp - cw) (msg.timestamp + cw)
          rest).1).getLastD msg).timestamp - msg.timestamp,
        is_threaded := false } ::
      gntOuter cw uid am rest
        ((gntInner (msg.timestamp - cw) (msg.timestamp + cw) rest).2 ++ i :: used) (c + 1) := by
  simp only [gntOuter, if_neg hi, if_neg ht, if_neg hs]

/-- Master no-double-claiming lemma for the non-threaded grouping loop: when
(on the remaining suffix `ps`) the claimed indices are exactly an initial
segment `a` plus every threaded message of the unclaimed part `b`, the
flattened messages of the emitted conversations form a sublist of the
non-threaded part of `b`. -/
theorem gntOuter_flatten_sublist (cw : Int) (uid : String) (am : Bool) :
    ∀ (ps : List (Nat × Message)) (used : List Nat) (c : Nat)
      (a b : List (Nat × Message)),
      ps = a ++ b →
      (∀ p ∈ a, p.1 ∈ used) →
      (∀ p ∈ b, p.1 ∈ used ↔ p.2.thread.isSome = true) →
      ps.Pairwise (fun p q : Nat × Message => p.2.timestamp ≤ q.2.timestamp) →
      (ps.map Prod.fst).Nodup →
      List.Sublist (((gntOuter cw uid am ps used c).map Conversation.messages).flatten)
        ((b.filter (fun p => p.2.thread.isNone)).map Prod.snd) := by
  intro ps
  induction ps with
  | nil =>
    intro used c a b _ _ _ _ _
    simp [gntOuter]
  | cons hd rest ih =>
    intro used c a b hsplit ha hb hsort hnd
    obtain ⟨i, msg⟩ := hd
    have hndrest : (rest.map Prod.fst).Nodup ∧ i ∉ rest.map Prod.fst := by
      simp only [List.map_cons] at hnd
      exact ⟨hnd.of_cons, (List.nodup_cons.mp hnd).1⟩
    by_cases hi : i ∈ used
    · rcases a with _ | ⟨a0, a'⟩
      · simp only [List.nil_append] at hsplit
        subst hsplit
        have hth : msg.thread.isSome = true :=
          (hb (i, msg) (List.mem_cons_self _ _)).mp hi
        have hnone : msg.thread.isNone = false := by
          rcases hm : msg.thread with _ | t
          · rw [hm] at hth; exact absurd hth (by simp)
          · rfl
        rw [gntOuter_cons_used hi]
        have := ih used c [] rest rfl (by simp)
          (fun p hp => hb p (List.mem_cons_of_mem _ hp)) hsort.of_cons hndrest.1
        simpa [List.filter_cons, hnone] using this
      · simp only [List.cons_append, List.cons.injEq] at hsplit
        rw [gntOuter_cons_used hi]
        exact ih used c a' b hsplit.2 (fun p hp => ha p (List.mem_cons_of_mem _ hp)) hb
          hsort.of_cons hndrest.1
    · have haeq : a = [] := by
        rcases a with _ | ⟨a0, a'⟩
        · rfl
        · simp only [List.cons_append, List.cons.injEq] at hsplit
          have := ha a0 (List.mem_cons_self _ _)
          rw [← hsplit.1] at this
          exact absurd this hi
      subst haeq
      simp only [List.nil_append] at hsplit
      subst hsplit
      have hth : ¬msg.thread.isSome := by
        intro hcon
        exact hi ((hb (i, msg) (List.mem_cons_self _ _)).mpr hcon)
      have hnone : msg.thread = none := by
        rcases hm : msg.thread with _ | t
        · rfl
        · rw [hm] at hth; exact absurd rfl hth
      have hisnone : msg.thread.isNone = true := by rw [hnone]; rfl
      have hh : ∀ q ∈ rest, msg.timestamp ≤ q.2.timestamp :=
        (List.pairwise_cons.mp hsort).1
      by_cases hs : msg.sender.id ≠ uid ∧ ¬am
      · rw [gntOuter_cons_skip hi hth hs]
        have := ih used c [] rest rfl (by simp)
          (fun p hp => hb p (List.mem_cons_of_mem _ hp)) hsort.of_cons hndrest.1
        rw [List.filter_cons, if_pos hisnone, List.map_cons]
        exact this.cons _
      · rw [gntOuter_cons_seed hi hth hs,
          gntInner_eq _ _ rest (fun p hp _ => seed_sweep_hyp cw hh p hp)]
        set take := rest.takeWhile (gntKeep (msg.timestamp + cw)) with htake
        set post := rest.dropWhile (gntKeep (msg.timestamp + cw)) with hpost
        have hrestsplit : rest = take ++ post :=
          (List.takeWhile_append_dropWhile _ _).symm
        have hdisj : List.Disjoint (take.map Prod.fst) (post.map Prod.fst) := by
          apply List.disjoint_of_nodup_append
          rw [← List.map_append, ← hrestsplit]
          exact hndrest.1
        have hpresub : List.Sublist (gntPre (msg.timestamp + cw) rest) take :=
          List.filter_sublist _
        have hrec := ih ((gntPre (msg.timestamp + cw) rest).map Prod.fst ++ i :: used)
          (c + 1) take post hrestsplit
          (fun p hp => by
            by_cases hpn : p.2.thread.isNone
            · apply List.mem_append_left
              apply List.mem_map_of_mem
              exact List.mem_filter.mpr ⟨hp, hpn⟩
            · apply List.mem_append_right
              apply List.mem_cons_of_mem
              have hthp : p.2.thread.isSome = true := by
                rcases hm : p.2.thread with _ | t
                · rw [hm] at hpn; exact absurd rfl hpn
                · rfl
              exact (hb p (List.mem_cons_of_mem _
                (hrestsplit ▸ List.mem_append_left _ hp))).mpr hthp)
          (fun p hp => by
            constructor
            · intro hmem
              rcases List.mem_append.mp hmem with hc | hc
              · obtain ⟨q, hq, hq1⟩ := List.mem_map.mp hc
                exact absurd (hq1 ▸ List.mem_map_of_mem Prod.fst (hpresub.mem hq))
                  (fun hcon => hdisj hcon (List.mem_map_of_mem Prod.fst hp))
              · rcases List.mem_cons.mp hc with hc | hc
                · exact absurd (hc ▸ List.mem_map_of_mem Prod.fst
                    (hrestsplit ▸ List.mem_append_right _ hp)) hndrest.2
                · exact (hb p (List.mem_cons_of_mem _
                    (hrestsplit ▸ List.mem_append_right _ hp))).mp hc
            · intro hthp
              apply List.mem_append_right
              apply List.mem_cons_of_mem
              exact (hb p (List.mem_cons_of_mem _
                (hrestsplit ▸ List.mem_append_right _ hp))).mpr hthp)
          hsort.of_cons hndrest.1
        have hgp : gntPre (msg.timestamp + cw) rest =
            take.filter (fun p => p.2.thread.isNone) := rfl
        have htarget : (((i, msg) :: rest).filter
            (fun p => p.2.thread.isNone)).map Prod.snd =
            msg :: ((take.filter (fun p => p.2.thread.isNone)).map Prod.snd ++
              (post.filter (fun p => p.2.thread.isNone)).map Prod.snd) := by
          rw [List.filter_cons, if_pos hisnone, List.map_cons, hrestsplit,
            List.filter_append, List.map_append]
        rw [htarget]
        simp only [List.map_cons, List.flatten_cons, hgp]
        exact List.Sublist.cons₂ _ (hrec.append_left _)

/-! ## Counter-generated id lists -/

theorem counterIds_nil (c : Nat) : CounterIds c [] :=
  ⟨[], rfl, rfl⟩

theorem counterIds_append {c : Nat} {A B : List Conversation}
    (hA : CounterIds c A) (hB : CounterIds (c + A.length) B) :
    CounterIds c (A ++ B) := by
  obtain ⟨LA, hA1, hA2⟩ := hA
  obtain ⟨LB, hB1, hB2⟩ := hB
  have hlenA : A.length = LA.length := by
    have := congrArg List.length hA1
    simpa using this
  refine ⟨LA ++ LB, ?_, ?_⟩
  · rw [List.map_append, hA1, hB1, List.map_append]
  · rw [List.map_append, hA2, hB2, hlenA, List.length_append,
      Nat.add_comm LA.length LB.length, List.range'_append_1]

theorem counterIds_nodup {c : Nat} {convs : List Conversation}
    (h : CounterIds c convs) : (convs.map Conversation.id).Nodup := by
  obtain ⟨L, h1, h2⟩ := h
  rw [h1]
  have hsnd : (L.map Prod.snd).Nodup := by
    rw [h2]
    exact List.nodup_range' _ _
  have hp : L.Pairwise (fun x y : String × Nat => x.2 ≠ y.2) :=
    List.pairwise_map.mp hsnd
  have hp2 : L.Pairwise (fun x y : String × Nat =>
      x.1 ++ "-" ++ Nat.repr x.2 ≠ y.1 ++ "-" ++ Nat.repr y.2) :=
    hp.imp (fun {x y} hxy => id_ne_of_counter_ne hxy)
  exact List.pairwise_map.mpr hp2

theorem gntOuter_counterIds (cw : Int) (uid : String) (am : Bool) :
    ∀ (ps : List (Nat × Message)) (used : List Nat) (c : Nat),
      CounterIds c (gntOuter cw uid am ps used c) := by
  intro ps
  induction ps with
  | nil => intro used c; exact counterIds_nil c
  | cons hd rest ih =>
    intro used c
    obtain ⟨i, msg⟩ := hd
    by_cases hi : i ∈ used
    · rw [gntOuter_cons_used hi]; exact ih used c
    · by_cases ht : msg.thread.isSome
      · rw [gntOuter_cons_thread hi ht]; exact ih used c
      · by_cases hs : msg.sender.id ≠ uid ∧ ¬am
        · rw [gntOuter_cons_skip hi ht hs]; exact ih used c
        · rw [gntOuter_cons_seed hi ht hs]
          obtain ⟨L', h1, h2⟩ := ih
            ((gntInner (msg.timestamp - cw) (msg.timestamp + cw) rest).2 ++ i :: used)
            (c + 1)
          refine ⟨("group-nonthread-" ++ slugify msg.space_name, c) :: L', ?_, ?_⟩
          · rw [List.map_cons, List.map_cons, h1]
          · rw [List.map_cons, h2, List.length_cons, List.range'_succ]

theorem gntOuter_convs_spec (cw : Int) (uid : String) (am : Bool) :
    ∀ (ps : List (Nat × Message)) (used : List Nat) (c : Nat),
      ps.Pairwise (fun p q : Nat × Message => p.2.timestamp ≤ q.2.timestamp) →
      ∀ conv ∈ gntOuter cw uid am ps used c,
        ∃ msg tl n,
          conv.id = "group-nonthread-" ++ slugify msg.space_name ++ "-" ++ Nat.repr n ∧
          c ≤ n ∧
          conv.space_id = msg.space_id ∧
          conv.space_type = msg.space_type ∧
          conv.messages = msg :: tl ∧
          conv.start_time = msg.timestamp ∧
          conv.end_time = (tl.getLastD msg).timestamp ∧
          conv.duration_seconds = (tl.getLastD msg).timestamp - msg.timestamp ∧
          conv.is_threaded = false ∧
          (∀ m ∈ tl, msg.timestamp ≤ m.timestamp ∧
            m.timestamp ≤ msg.timestamp + cw) ∧
          SortedTS (msg :: tl) ∧
          (∀ m ∈ conv.messages, m ∈ ps.map Prod.snd) := by
  intro ps
  induction ps with
  | nil =>
    intro used c _ conv hconv
    simp [gntOuter] at hconv
  | cons hd rest ih =>
    intro used c hsort conv hconv
    obtain ⟨i, msg⟩ := hd
    have hh : ∀ q ∈ rest, msg.timestamp ≤ q.2.timestamp :=
      (List.pairwise_cons.mp hsort).1
    have hweaken : ∀ m : Message, m ∈ rest.map Prod.snd →
        m ∈ ((i, msg) :: rest).map Prod.snd := by
      intro m hm
      rw [List.map_cons]
      exact List.mem_cons_of_mem _ hm
    have hstep : ∀ (used' : List Nat) (c' : Nat), c ≤ c' →
        conv ∈ gntOuter cw uid am rest used' c' →
        (∃ msg' tl n, conv.id = "group-nonthread-" ++ slugify msg'.space_name ++ "-" ++
            Nat.repr n ∧ c ≤ n ∧ conv.space_id = msg'.space_id ∧
          conv.space_type = msg'.space_type ∧ conv.messages = msg' :: tl ∧
          conv.start_time = msg'.timestamp ∧
          conv.end_time = (tl.getLastD msg').timestamp ∧
          conv.duration_seconds = (tl.getLastD msg').timestamp - msg'.timestamp ∧
          conv.is_threaded = false ∧
          (∀ m ∈ tl, msg'.timestamp ≤ m.timestamp ∧
            m.timestamp ≤ msg'.timestamp + cw) ∧
          SortedTS (msg' :: tl) ∧
          (∀ m ∈ conv.messages, m ∈ ((i, msg) :: rest).map Prod.snd)) := by
      intro used' c' hcc hconv'
      obtain ⟨m0, tl, n, ha1, ha2, ha3, ha4, ha5, ha6, ha7, ha8, ha9, ha10, ha11, ha12⟩ :=
        ih used' c' hsort.of_cons conv hconv'
      exact ⟨m0, tl, n, ha1, le_trans hcc ha2, ha3, ha4, ha5, ha6, ha7, ha8, ha9,
        ha10, ha11, fun m hm => hweaken m (ha12 m hm)⟩
    by_cases hi : i ∈ used
    · rw [gntOuter_cons_used hi] at hconv
      exact hstep used c le_rfl hconv
    · by_cases ht : msg.thread.isSome
      · rw [gntOuter_cons_thread hi ht] at hconv
        exact hstep used c le_rfl hconv
      · by_cases hs : msg.sender.id ≠ uid ∧ ¬am
        · rw [gntOuter_cons_skip hi ht hs] at hconv
          exact hstep used c le_rfl hconv
        · rw [gntOuter_cons_seed hi ht hs,
            gntInner_eq _ _ rest (fun p hp _ => seed_sweep_hyp cw hh p hp)] at hconv
          rcases List.mem_cons.mp hconv with hc | hc
          · subst hc
            refine ⟨msg, (gntPre (msg.timestamp + cw) rest).map Prod.snd, c,
              rfl, le_rfl, rfl, rfl, rfl, rfl, rfl, rfl, rfl, ?_, ?_, ?_⟩
            · intro m hm
              obtain ⟨p, hp, rfl⟩ := List.mem_map.mp hm
              have hp1 := List.mem_filter.mp hp
              have hp2 : p ∈ rest := (List.takeWhile_sublist _).mem hp1.1
              refine ⟨hh p hp2, ?_⟩
              have hk := List.mem_takeWhile_imp hp1.1
              have hn : p.2.thread.isSome = false := by
                rcases hm2 : p.2.thread with _ | t
                · rfl
                · rw [hm2] at hp1
                  exact absurd hp1.2 (by simp)
              rw [gntKeep, hn] at hk
              simpa using hk
            · show (msg :: (gntPre (msg.timestamp + cw) rest).map Prod.snd).Pairwise
                (fun a b : Message => a.timestamp ≤ b.timestamp)
              rw [List.pairwise_cons]
              constructor
              · intro m hm
                obtain ⟨p, hp, rfl⟩ := List.mem_map.mp hm
                have hp1 := List.mem_filter.mp hp
                exact hh p ((List.takeWhile_sublist _).mem hp1.1)
              · have hrest : rest.Pairwise
                    (fun p q : Nat × Message => p.2.timestamp ≤ q.2.timestamp) :=
                  hsort.of_cons
                have hsub : List.Sublist (gntPre (msg.timestamp + cw) rest) rest :=
                  ((List.filter_sublist _).trans (List.takeWhile_sublist _))
                exact List.Pairwise.map Prod.snd (fun a b hab => hab)
                  (hrest.sublist hsub)
            · intro m hm
              rcases List.mem_cons.mp hm with rfl | hm
              · rw [List.map_cons]
                exact List.mem_cons_self _ _
              · obtain ⟨p, hp, rfl⟩ := List.mem_map.mp hm
                have hp2 : p ∈ rest :=
                  ((List.filter_sublist _).trans (List.takeWhile_sublist _)).mem hp
                exact hweaken _ (List.mem_map_of_mem _ hp2)
          · exact hstep _ (c + 1) (Nat.le_succ c) hc

/-! ## The key-bucketing folds -/

theorem dictAppend_keys {β : Type} (d : List (String × List β)) (k : String) (v : β) :
    (dictAppend d k v).map Prod.fst = d.map Prod.fst := by
  unfold dictAppend
  rw [List.map_map]
  apply List.map_congr_left
  intro e _
  by_cases he : e.1 = k <;> simp [he]

theorem dictHasKey_dictAppend {β : Type} (d : List (String × List β))
    (k k' : String) (v : β) :
    dictHasKey (dictAppend d k' v) k = dictHasKey d k := by
  induction d with
  | nil => rfl
  | cons e d ih =>
    unfold dictHasKey dictAppend at *
    simp only [List.map_cons, List.any_cons]
    rw [ih]
    have : (if e.1 = k' then (e.1, e.2 ++ [v]) else e).1 = e.1 := by
      by_cases he : e.1 = k' <;> simp [he]
    rw [this]

theorem dictHasKey_append {β : Type} (d d' : List (String × β)) (k : String) :
    dictHasKey (d ++ d') k = (dictHasKey d k || dictHasKey d' k) := by
  unfold dictHasKey
  exact List.any_append

theorem dictHasKey_false_notmem {β : Type} {d : List (String × β)} {k : String}
    (h : dictHasKey d k = false) : k ∉ d.map Prod.fst := by
  intro hc
  obtain ⟨e, he, he1⟩ := List.mem_map.mp hc
  unfold dictHasKey at h
  rw [List.any_eq_false] at h
  exact absurd (by simpa using he1) (h e he)

theorem dictInv_noop {p : String → Message → Bool} {done : List Message}
    {d : List (String × List Message)} {m : Message}
    (hP : DictInv p done d) (hm : ∀ k, p k m = false) :
    DictInv p (done ++ [m]) d := by
  obtain ⟨h1, h2, h3⟩ := hP
  have hfilter : ∀ k, (done ++ [m]).filter (fun m' => p k m') =
      done.filter (fun m' => p k m') := by
    intro k
    rw [List.filter_append]
    simp [List.filter_cons, hm k]
  exact ⟨h1, fun e he => by rw [h2 e he, hfilter], fun k => by rw [hfilter]; exact h3 k⟩

theorem dictInv_insert {p : String → Message → Bool} {done : List Message}
    {d : List (String × List Message)} {m : Message} {k : String}
    (hP : DictInv p done d) (hm : ∀ k', p k' m = true ↔ k' = k) :
    DictInv p (done ++ [m])
      (if dictHasKey d k then dictAppend d k m else d ++ [(k, [m])]) := by
  obtain ⟨h1, h2, h3⟩ := hP
  have hmk : p k m = true := (hm k).mpr rfl
  have hfilter_ne : ∀ k', k' ≠ k → (done ++ [m]).filter (fun m' => p k' m') =
      done.filter (fun m' => p k' m') := by
    intro k' hk'
    rw [List.filter_append]
    have : p k' m = false := by
      rcases hpk : p k' m with _ | _
      · rfl
      · exact absurd ((hm k').mp hpk) hk'
    simp [List.filter_cons, this]
  have hfilter_eq : (done ++ [m]).filter (fun m' => p k m') =
      done.filter (fun m' => p k m') ++ [m] := by
    rw [List.filter_append]
    simp [List.filter_cons, hmk]
  by_cases hk : dictHasKey d k
  · rw [if_pos hk]
    refine ⟨by rw [dictAppend_keys]; exact h1, ?_, ?_⟩
    · intro e he
      unfold dictAppend at he
      obtain ⟨e0, he0, he0e⟩ := List.mem_map.mp he
      by_cases he0k : e0.1 = k
      · rw [if_pos he0k] at he0e
        rw [← he0e]
        simp only
        rw [h2 e0 he0, he0k, hfilter_eq]
      · rw [if_neg he0k] at he0e
        rw [← he0e, h2 e0 he0, hfilter_ne e0.1 he0k]
    · intro k'
      rw [dictHasKey_dictAppend]
      by_cases hk' : k' = k
      · subst hk'
        rw [hk, hfilter_eq]
        simp
      · rw [hfilter_ne k' hk']
        exact h3 k'
  · rw [if_neg hk]
    have hknot : k ∉ d.map Prod.fst := dictHasKey_false_notmem (by
      rcases h : dictHasKey d k with _ | _
      · rfl
      · exact absurd h hk)
    have hempty : done.filter (fun m' => p k m') = [] := by
      by_contra hc
      exact hk ((h3 k).mpr hc)
    refine ⟨?_, ?_, ?_⟩
    · rw [List.map_append]
      rw [List.nodup_append]
      exact ⟨h1, by simp, by
        intro x hx hx'
        simp only [List.map_cons, List.map_nil, List.mem_singleton] at hx'
        subst hx'
        exact hknot hx⟩
    · intro e he
      rcases List.mem_append.mp he with he | he
      · have hek : e.1 ≠ k := by
          intro hc
          exact hknot (hc ▸ List.mem_map_of_mem Prod.fst he)
        rw [h2 e he, hfilter_ne e.1 hek]
      · simp only [List.mem_singleton] at he
        subst he
        simp only
        rw [hfilter_eq, hempty, List.nil_append]
    · intro k'
      rw [dictHasKey_append]
      by_cases hk' : k' = k
      · subst hk'
        rw [hfilter_eq]
        have : dictHasKey [(k', [m])] k' = true := by
          simp [dictHasKey]
        rw [this]
        simp
      · have : dictHasKey [(k, [m])] k' = false := by
          simp only [dictHasKey, List.any_cons, List.any_nil, Bool.or_false]
          simpa using fun hc => hk' hc.symm
        rw [this, hfilter_ne k' hk', Bool.or_false]
        exact h3 k'

theorem gmbs_fold_inv :
    ∀ (msgs : List Message) (done : List Message)
      (d : List (String × List Message)),
      DictInv (fun k m => decide (m.space_id = k)) done d →
      DictInv (fun k m => decide (m.space_id = k)) (done ++ msgs)
        (msgs.foldl addToSpaceDict d) := by
  intro msgs
  induction msgs with
  | nil =>
    intro done d h
    simpa using h
  | cons m rest ih =>
    intro done d h
    have hstep : DictInv (fun k m => decide (m.space_id = k)) (done ++ [m])
        (addToSpaceDict d m) := by
      unfold addToSpaceDict
      exact dictInv_insert h (fun k' => by simp [eq_comm])
    have := ih (done ++ [m]) (addToSpaceDict d m) hstep
    simpa [List.append_assoc] using this

/-- Characterisation of `group_messages_by_space`: distinct keys, and each
bucket is exactly the sublist of the input with that `space_id`. -/
theorem gmbs_spec (msgs : List Message) :
    DictInv (fun k m => decide (m.space_id = k)) msgs
      (group_messages_by_space msgs) := by
  have := gmbs_fold_inv msgs [] []
    ⟨by simp, by simp, fun k => by simp [dictHasKey]⟩
  simpa [group_messages_by_space] using this

theorem gtm_fold_inv :
    ∀ (msgs : List Message) (done : List Message)
      (acc : List (String × List Message) × List (String × String)),
      DictInv hasThreadId done acc.1 →
      DictInv hasThreadId (done ++ msgs) (msgs.foldl gtmStep acc).1 := by
  intro msgs
  induction msgs with
  | nil =>
    intro done acc h
    simpa using h
  | cons m rest ih =>
    intro done acc h
    have hstep : DictInv hasThreadId (done ++ [m]) (gtmStep acc m).1 := by
      unfold gtmStep
      rcases hm : m.thread with _ | t
      · exact dictInv_noop h (fun k => by simp [hasThreadId, hm])
      · simp only
        have hmatch : ∀ k', hasThreadId k' m = true ↔ k' = t.id := by
          intro k'
          simp [hasThreadId, hm, eq_comm]
        have := dictInv_insert h hmatch
        by_cases hk : dictHasKey acc.1 t.id
        · rw [if_pos hk] at this ⊢
          exact this
        · rw [if_neg hk] at this ⊢
          exact this
    have := ih (done ++ [m]) (gtmStep acc m) hstep
    simpa [List.append_assoc] using this

/-- Characterisation of `_group_threaded_messages`: distinct thread ids, and
each bucket is exactly the sublist of the input whose `thread.id` matches. -/
theorem gtm_spec (msgs : List Message) :
    DictInv hasThreadId msgs (_group_threaded_messages msgs).1 := by
  have := gtm_fold_inv msgs [] ([], [])
    ⟨by simp, by simp, fun k => by simp [dictHasKey]⟩
  simpa [_group_threaded_messages] using this

theorem dictInv_entry_ne_nil {p : String → Message → Bool} {done : List Message}
    {d : List (String × List Message)} (h : DictInv p done d) :
    ∀ e ∈ d, e.2 ≠ [] := by
  intro e he
  obtain ⟨_, h2, h3⟩ := h
  have hk : dictHasKey d e.1 = true := by
    unfold dictHasKey
    rw [List.any_eq_true]
    exact ⟨e, he, by simp⟩
  rw [h2 e he]
  exact (h3 e.1).mp hk

/-! ## Structure of `_create_thread_conversations`

The "move the original post to the front" branch is dead code: the candidate
is searched *within* the bucket, so the membership test `op ∉ msgs` that
guards the insertion can never succeed. -/

theorem ctc_msgs1_eq (msgs : List Message) (opid : String) :
    (match msgs.find? (fun m => m.sender.id = opid) with
      | some op => if op ∉ msgs then op :: msgs else msgs
      | none => msgs) = msgs := by
  split
  · rename_i op hop
    rw [if_neg (not_not_intro (List.mem_of_find?_eq_some hop))]
  · rfl

theorem ctcLoop_cons_skip {town : List (String × String)} {uid : String}
    {am : Bool} {tid : String} {msgs : List Message}
    {rest : List (String × List Message)} {c : Nat}
    (hp : ¬(msgs.any (fun m => m.sender.id = uid)) ∧ ¬am) :
    ctcLoop town uid am ((tid, msgs) :: rest) c = ctcLoop town uid am rest c := by
  simp only [ctcLoop, if_pos hp]

theorem ctcLoop_cons_emit {town : List (String × String)} {uid : String}
    {am : Bool} {tid : String} {m0 : Message} {mrest : List Message}
    {rest : List (String × List Message)} {c : Nat}
    (hp : ¬(¬((m0 :: mrest).any (fun m => m.sender.id = uid)) ∧ ¬am)) :
    ctcLoop town uid am ((tid, m0 :: mrest) :: rest) c =
      ({ id := "group-thread-" ++ slugify m0.space_name ++ "-" ++ Nat.repr c,
         space_id := m0.space_id,
         space_type := m0.space_type,
         participants := (sendersDict (m0 :: mrest)).map Prod.snd,
         messages := m0 :: mrest,
         start_time := m0.timestamp,
         end_time := (mrest.getLastD m0).timestamp,
         duration_seconds := (mrest.getLastD m0).timestamp - m0.timestamp,
         is_threaded := true } :: (ctcLoop town uid am rest (c + 1)).1,
       (ctcLoop town uid am rest (c + 1)).2) := by
  simp only [ctcLoop, if_neg hp]
  rw [ctc_msgs1_eq]

theorem ctcLoop_cons_nil {town : List (String × String)} {uid : String}
    {am : Bool} {tid : String} {rest : List (String × List Message)} {c : Nat}
    (hp : ¬(¬(([] : List Message).any (fun m => m.sender.id = uid)) ∧ ¬am)) :
    ctcLoop town uid am ((tid, ([] : List Message)) :: rest) c =
      ctcLoop town uid am rest c := by
  simp only [ctcLoop, if_neg hp]
  rw [ctc_msgs1_eq]

theorem ctcLoop_next (town : List (String × String)) (uid : String) (am : Bool) :
    ∀ (tc : List (String × List Message)) (c : Nat),
      (ctcLoop town uid am tc c).2 = c + (ctcLoop town uid am tc c).1.length := by
  intro tc
  induction tc with
  | nil => intro c; rfl
  | cons e rest ih =>
    intro c
    obtain ⟨tid, msgs⟩ := e
    by_cases hp : ¬(msgs.any (fun m => m.sender.id = uid)) ∧ ¬am
    · rw [ctcLoop_cons_skip hp]
      exact ih c
    · rcases msgs with _ | ⟨m0, mrest⟩
      · rw [ctcLoop_cons_nil hp]
        exact ih c
      · rw [ctcLoop_cons_emit hp]
        simp only [List.length_cons]
        rw [ih (c + 1)]
        omega

theorem ctcLoop_counterIds (town : List (String × String)) (uid : String)
    (am : Bool) :
    ∀ (tc : List (String × List Message)) (c : Nat),
      CounterIds c (ctcLoop town uid am tc c).1 := by
  intro tc
  induction tc with
  | nil => intro c; exact counterIds_nil c
  | cons e rest ih =>
    intro c
    obtain ⟨tid, msgs⟩ := e
    by_cases hp : ¬(msgs.any (fun m => m.sender.id = uid)) ∧ ¬am
    · rw [ctcLoop_cons_skip hp]
      exact ih c
    · rcases msgs with _ | ⟨m0, mrest⟩
      · rw [ctcLoop_cons_nil hp]
        exact ih c
      · rw [ctcLoop_cons_emit hp]
        obtain ⟨L', h1, h2⟩ := ih (c + 1)
        refine ⟨("group-thread-" ++ slugify m0.space_name, c) :: L', ?_, ?_⟩
        · rw [List.map_cons, List.map_cons, h1]
        · rw [List.map_cons, h2, List.length_cons, List.range'_succ]

/-- The emitted threaded conversations carry their buckets *unchanged*: the
original-poster search never reorders a bucket (the guarding membership test
is unsatisfiable), so the messages of the emitted conversations are exactly
the buckets that pass the participation filter and are nonempty. -/
theorem ctcLoop_messages (town : List (String × String)) (uid : String)
    (am : Bool) :
    ∀ (tc : List (String × List Message)) (c : Nat),
      ((ctcLoop town uid am tc c).1).map Conversation.messages =
        (tc.filter (fun e =>
          (e.2.any (fun m => m.sender.id = uid) || am) && !e.2.isEmpty)).map Prod.snd := by
  intro tc
  induction tc with
  | nil => intro c; rfl
  | cons e rest ih =>
    intro c
    obtain ⟨tid, msgs⟩ := e
    by_cases hp : ¬(msgs.any (fun m => m.sender.id = uid)) ∧ ¬am
    · rw [ctcLoop_cons_skip hp]
      have hcond : ((msgs.any (fun m => m.sender.id = uid) || am) && !msgs.isEmpty) =
          false := by
        obtain ⟨hp1, hp2⟩ := hp
        simp only [Bool.not_eq_true] at hp1 hp2
        rw [hp1, hp2]
        rfl
      rw [List.filter_cons, hcond]
      simp only [Bool.false_eq_true, if_false]
      exact ih c
    · rcases msgs with _ | ⟨m0, mrest⟩
      · rw [ctcLoop_cons_nil hp]
        have hcond : ((([] : List Message).any (fun m => m.sender.id = uid) || am) &&
            !([] : List Message).isEmpty) = false := by
          simp
        rw [List.filter_cons, hcond]
        simp only [Bool.false_eq_true, if_false]
        exact ih c
      · rw [ctcLoop_cons_emit hp]
        have hcond : (((m0 :: mrest).any (fun m => m.sender.id = uid) || am) &&
            !(m0 :: mrest).isEmpty) = true := by
          rw [not_and_or] at hp
          rcases hp with hp | hp <;> simp only [not_not, Bool.not_eq_true,
            Bool.not_eq_false] at hp <;> simp [hp]
        rw [List.filter_cons, hcond]
        simp only [if_true, List.map_cons]
        rw [ih (c + 1)]

theorem ctcLoop_convs_spec (town : List (String × String)) (uid : String)
    (am : Bool) (source : List Message) :
    ∀ (tc : List (String × List Message)) (c : Nat),
      (∀ e ∈ tc, SortedTS e.2 ∧ ∀ m ∈ e.2, m ∈ source) →
      ∀ conv ∈ (ctcLoop town uid am tc c).1,
        ∃ m0 tl n,
          conv.id = "group-thread-" ++ slugify m0.space_name ++ "-" ++ Nat.repr n ∧
          c ≤ n ∧
          conv.space_id = m0.space_id ∧
          conv.space_type = m0.space_type ∧
          conv.messages = m0 :: tl ∧
          conv.start_time = m0.timestamp ∧
          conv.end_time = (tl.getLastD m0).timestamp ∧
          conv.duration_seconds = (tl.getLastD m0).timestamp - m0.timestamp ∧
          conv.is_threaded = true ∧
          SortedTS (m0 :: tl) ∧
          (∀ m ∈ conv.messages, m ∈ source) := by
  intro tc
  induction tc with
  | nil =>
    intro c _ conv hconv
    simp [ctcLoop] at hconv
  | cons e rest ih =>
    intro c htc conv hconv
    obtain ⟨tid, msgs⟩ := e
    have htcrest : ∀ e ∈ rest, SortedTS e.2 ∧ ∀ m ∈ e.2, m ∈ source :=
      fun e he => htc e (List.mem_cons_of_mem _ he)
    have hstep : ∀ c', c ≤ c' → conv ∈ (ctcLoop town uid am rest c').1 →
        (∃ m0 tl n,
          conv.id = "group-thread-" ++ slugify m0.space_name ++ "-" ++ Nat.repr n ∧
          c ≤ n ∧ conv.space_id = m0.space_id ∧ conv.space_type = m0.space_type ∧
          conv.messages = m0 :: tl ∧ conv.start_time = m0.timestamp ∧
          conv.end_time = (tl.getLastD m0).timestamp ∧
          conv.duration_seconds = (tl.getLastD m0).timestamp - m0.timestamp ∧
          conv.is_threaded = true ∧ SortedTS (m0 :: tl) ∧
          (∀ m ∈ conv.messages, m ∈ source)) := by
      intro c' hcc hconv'
      obtain ⟨m0, tl, n, b1, b2, b3, b4, b5, b6, b7, b8, b9, b10, b11⟩ :=
        ih c' htcrest conv hconv'
      exact ⟨m0, tl, n, b1, le_trans hcc b2, b3, b4, b5, b6, b7, b8, b9, b10, b11⟩
    by_cases hp : ¬(msgs.any (fun m => m.sender.id = uid)) ∧ ¬am
    · rw [ctcLoop_cons_skip hp] at hconv
      exact hstep c le_rfl hconv
    · rcases msgs with _ | ⟨m0, mrest⟩
      · rw [ctcLoop_cons_nil hp] at hconv
        exact hstep c le_rfl hconv
      · rw [ctcLoop_cons_emit hp] at hconv
        rcases List.mem_cons.mp hconv with hc | hc
        · subst hc
          obtain ⟨hsorted, hmem⟩ := htc (tid, m0 :: mrest) (List.mem_cons_self _ _)
          exact ⟨m0, mrest, c, rfl, le_rfl, rfl, rfl, rfl, rfl, rfl, rfl, rfl,
            hsorted, hmem⟩
        · exact hstep (c + 1) (Nat.le_succ c) hc

/-! ## Structure of the DM grouping pass -/

/-- On a nonempty window, `build_dm_conversation` always succeeds and returns
the conversation assembled from the window, whatever the collaborator does;
the slug and the final cache depend on the resolution outcome. -/
theorem build_dm_conversation_cons (m0 : Message) (tl : List Message)
    (uid : String) (cid : Nat) (client : Option WebexClientModel)
    (cache : PersonCache) :
    ∃ slug cache',
      build_dm_conversation (m0 :: tl) uid cid client cache =
        .ok ({ id := "dm-" ++ slug ++ "-" ++ Nat.repr cid,
               space_id := m0.space_id,
               space_type := m0.space_type,
               participants := (sendersDict (m0 :: tl)).map Prod.snd,
               messages := m0 :: tl,
               start_time := m0.timestamp,
               end_time := (tl.getLastD m0).timestamp,
               duration_seconds := (tl.getLastD m0).timestamp - m0.timestamp,
               is_threaded := false }, cache') :=
  ⟨_, _, rfl⟩

theorem buildDmWindows_cons_ok {uid : String} {client : Option WebexClientModel}
    {w : List Message} {ws : List (List Message)} {c : Nat}
    {cache cache1 cache2 : PersonCache} {conv : Conversation}
    {convs : List Conversation} {c' : Nat}
    (h1 : build_dm_conversation w uid c client cache = .ok (conv, cache1))
    (h2 : buildDmWindows uid client ws (c + 1) cache1 = .ok (convs, c', cache2)) :
    buildDmWindows uid client (w :: ws) c cache = .ok (conv :: convs, c', cache2) := by
  unfold buildDmWindows
  rw [h1]
  show (match buildDmWindows uid client ws (c + 1) cache1 with
        | .error e => .error e
        | .ok (convs', c'', cache'') => Except.ok (conv :: convs', c'', cache'')) =
      Except.ok (conv :: convs, c', cache2)
  rw [h2]

theorem buildDmWindows_spec (uid : String) (client : Option WebexClientModel) :
    ∀ (ws : List (List Message)) (c : Nat) (cache : PersonCache),
      (∀ w ∈ ws, w ≠ []) →
      ∃ convs c' cache',
        buildDmWindows uid client ws c cache = .ok (convs, c', cache') ∧
        convs.map Conversation.messages = ws ∧
        c' = c + ws.length ∧
        CounterIds c convs ∧
        (∀ conv ∈ convs, ∃ m0 tl n slug,
          conv.id = "dm-" ++ slug ++ "-" ++ Nat.repr n ∧ c ≤ n ∧
          conv.space_id = m0.space_id ∧ conv.space_type = m0.space_type ∧
          conv.messages = m0 :: tl ∧ conv.start_time = m0.timestamp ∧
          conv.end_time = (tl.getLastD m0).timestamp ∧
          conv.duration_seconds = (tl.getLastD m0).timestamp - m0.timestamp ∧
          conv.is_threaded = false) := by
  intro ws
  induction ws with
  | nil =>
    intro c cache _
    exact ⟨[], c, cache, rfl, rfl, by simp, counterIds_nil c, by simp⟩
  | cons w ws ih =>
    intro c cache hne
    rcases hw : w with _ | ⟨m0, tl⟩
    · exact absurd rfl (hw ▸ hne w (List.mem_cons_self _ _))
    · obtain ⟨slug, cache1, hbdm⟩ := build_dm_conversation_cons m0 tl uid c client cache
      obtain ⟨convs', c', cache', hrec, hmsgs, hc', hcids, hspec⟩ :=
        ih (c + 1) cache1 (fun w' hw' => hne w' (List.mem_cons_of_mem _ hw'))
      refine ⟨{ id := "dm-" ++ slug ++ "-" ++ Nat.repr c,
                space_id := m0.space_id,
                space_type := m0.space_type,
                participants := (sendersDict (m0 :: tl)).map Prod.snd,
                messages := m0 :: tl,
                start_time := m0.timestamp,
                end_time := (tl.getLastD m0).timestamp,
                duration_seconds := (tl.getLastD m0).timestamp - m0.timestamp,
                is_threaded := false } :: convs', c', cache', ?_, ?_, ?_, ?_, ?_⟩
      · exact buildDmWindows_cons_ok hbdm hrec
      · rw [List.map_cons, hmsgs]
      · rw [hc', List.length_cons]
        omega
      · obtain ⟨L', h1, h2⟩ := hcids
        refine ⟨("dm-" ++ slug, c) :: L', ?_, ?_⟩
        · rw [List.map_cons, List.map_cons, h1]
        · rw [List.map_cons, h2, List.length_cons, List.range'_succ]
      · intro conv hconv
        rcases List.mem_cons.mp hconv with rfl | hconv
        · exact ⟨m0, tl, c, slug, rfl, le_rfl, rfl, rfl, rfl, rfl, rfl, rfl, rfl⟩
        · obtain ⟨m0', tl', n, slug', a1, a2, a3, a4, a5, a6, a7, a8, a9⟩ :=
            hspec conv hconv
          exact ⟨m0', tl', n, slug', a1, le_trans (Nat.le_succ c) a2, a3, a4, a5,
            a6, a7, a8, a9⟩

theorem gdmSpaces_cons_ok {cw : Int} {uid : String} {ip am : Bool}
    {client : Option WebexClientModel} {k : String} {v : List Message}
    {spaces : List (String × List Message)} {c c1 c2 : Nat}
    {cache cache1 cache2 : PersonCache} {convs1 convs2 : List Conversation}
    (h1 : buildDmWindows uid client
      (find_conversation_windows v cw uid ip am) c cache = .ok (convs1, c1, cache1))
    (h2 : gdmSpaces cw uid ip client am spaces c1 cache1 = .ok (convs2, c2, cache2)) :
    gdmSpaces cw uid ip client am ((k, v) :: spaces) c cache =
      .ok (convs1 ++ convs2, c2, cache2) := by
  unfold gdmSpaces
  rw [h1]
  show (match gdmSpaces cw uid ip client am spaces c1 cache1 with
        | .error e => .error e
        | .ok (convs', c'', cache'') => Except.ok (convs1 ++ convs', c'', cache'')) =
      Except.ok (convs1 ++ convs2, c2, cache2)
  rw [h2]

/-- Master lemma for the DM pass over a space dictionary: success, counter
discipline, no double-claiming of message ids across all spaces, and the
shape of every emitted conversation. -/
theorem gdmSpaces_spec (cw : Int) (uid : String) (ip am : Bool)
    (client : Option WebexClientModel) (msgs0 : List Message) :
    ∀ (spaces : List (String × List Message)) (c : Nat) (cache : PersonCache),
      (spaces.map Prod.fst).Nodup →
      (∀ e ∈ spaces, ∀ m ∈ e.2, m.space_id = e.1 ∧ m ∈ msgs0) →
      ∃ convs c' cache',
        gdmSpaces cw uid ip client am spaces c cache = .ok (convs, c', cache') ∧
        c' = c + convs.length ∧
        CounterIds c convs ∧
        ((∀ e ∈ spaces, ((e.2).map Message.id).Nodup) →
          (∀ m m' : Message, m ∈ msgs0 → m' ∈ msgs0 → m.id = m'.id → m = m') →
          ((convs.map Conversation.messages).flatten.map Message.id).Nodup) ∧
        (∀ m ∈ (convs.map Conversation.messages).flatten, ∃ e ∈ spaces, m ∈ e.2) ∧
        (∀ conv ∈ convs, ∃ m0 tl n slug,
          conv.id = "dm-" ++ slug ++ "-" ++ Nat.repr n ∧ c ≤ n ∧
          conv.space_id = m0.space_id ∧ conv.space_type = m0.space_type ∧
          conv.messages = m0 :: tl ∧ conv.start_time = m0.timestamp ∧
          conv.end_time = (tl.getLastD m0).timestamp ∧
          conv.duration_seconds = (tl.getLastD m0).timestamp - m0.timestamp ∧
          conv.is_threaded = false ∧
          SortedTS (m0 :: tl) ∧
          (∀ m ∈ tl, m0.timestamp ≤ m.timestamp ∧
            m.timestamp ≤ m0.timestamp + cw) ∧
          (∀ m ∈ conv.messages, m ∈ msgs0 ∧ m.space_id = conv.space_id)) := by
  intro spaces
  induction spaces with
  | nil =>
    intro c cache _ _
    exact ⟨[], c, cache, rfl, by simp, counterIds_nil c, fun _ _ => by simp,
      by simp, by simp⟩
  | cons e rest ih =>
    intro c cache hkeys hbuckets
    obtain ⟨k, v⟩ := e
    have hsorted : SortedTS (sortMsgs v) := sortMsgs_sorted v
    have hes : (sortMsgs v).enum.Pairwise
        (fun p q : Nat × Message => p.2.timestamp ≤ q.2.timestamp) :=
      enum_sorted hsorted
    have hwspec := fcwOuter_windows_spec cw uid ip am (sortMsgs v).enum [] hes
    have hne : ∀ w ∈ find_conversation_windows v cw uid ip am, w ≠ [] := by
      intro w hw
      obtain ⟨msg, tl, h1, _⟩ := hwspec w hw
      rw [h1]
      exact List.cons_ne_nil _ _
    obtain ⟨convs1, c1, cache1, hok1, hmsgs1, hc1, hcids1, hfields1⟩ :=
      buildDmWindows_spec uid client (find_conversation_windows v cw uid ip am)
        c cache hne
    have hkeysrest : (rest.map Prod.fst).Nodup := by
      simp only [List.map_cons] at hkeys
      exact hkeys.of_cons
    have hknotin : k ∉ rest.map Prod.fst := by
      simp only [List.map_cons] at hkeys
      exact (List.nodup_cons.mp hkeys).1
    obtain ⟨convs2, c2, cache2, hok2, hc2, hcids2, hnodup2, hmem2, hfields2⟩ :=
      ih c1 cache1 hkeysrest
        (fun e he => hbuckets e (List.mem_cons_of_mem _ he))
    have hflat1 : List.Sublist ((convs1.map Conversation.messages).flatten)
        (sortMsgs v) := by
      rw [hmsgs1]
      have := fcwOuter_flatten_sublist cw uid ip am (sortMsgs v).enum []
        [] (sortMsgs v).enum rfl (by simp) (by simp) hes (enum_fst_nodup _)
      rw [List.enum_map_snd] at this
      exact this
    have hmemv : ∀ m ∈ (convs1.map Conversation.messages).flatten, m ∈ v := by
      intro m hm
      exact (sortMsgs_perm v).mem_iff.mp (hflat1.mem hm)
    have hvspace : ∀ m ∈ v, m.space_id = k ∧ m ∈ msgs0 :=
      hbuckets (k, v) (List.mem_cons_self _ _)
    have hlen1 : convs1.length = (find_conversation_windows v cw uid ip am).length := by
      have := congrArg List.length hmsgs1
      simpa using this
    refine ⟨convs1 ++ convs2, c2, cache2, gdmSpaces_cons_ok hok1 hok2, ?_, ?_, ?_, ?_, ?_⟩
    · rw [hc2, hc1, List.length_append, hlen1]
      omega
    · exact counterIds_append hcids1 (by
        rw [hc1, ← hlen1] at hcids2
        exact hcids2)
    · intro hbnodup hinj
      have hnodup1 :
          (((convs1.map Conversation.messages).flatten).map Message.id).Nodup := by
        have hvnodup : ((sortMsgs v).map Message.id).Nodup := by
          have := hbnodup (k, v) (List.mem_cons_self _ _)
          exact ((sortMsgs_perm v).map Message.id).nodup_iff.mpr this
        exact (hflat1.map Message.id).nodup hvnodup
      rw [List.map_append, List.flatten_append, List.map_append]
      rw [List.nodup_append]
      refine ⟨hnodup1,
        hnodup2 (fun e he => hbnodup e (List.mem_cons_of_mem _ he)) hinj, ?_⟩
      intro x hx hx'
      obtain ⟨m, hm, rfl⟩ := List.mem_map.mp hx
      obtain ⟨m', hm', hmid⟩ := List.mem_map.mp hx'
      obtain ⟨e', he', hme'⟩ := hmem2 m' hm'
      have h1 := hvspace m (hmemv m hm)
      have h2 := hbuckets e' (List.mem_cons_of_mem _ he') m' hme'
      have : m = m' := hinj m m' h1.2 h2.2 hmid.symm
      subst this
      rw [h1.1] at h2
      exact hknotin (h2.1 ▸ List.mem_map_of_mem Prod.fst he')
    · intro m hm
      rw [List.map_append, List.flatten_append] at hm
      rcases List.mem_append.mp hm with hm | hm
      · exact ⟨(k, v), List.mem_cons_self _ _, hmemv m hm⟩
      · obtain ⟨e', he', hme'⟩ := hmem2 m hm
        exact ⟨e', List.mem_cons_of_mem _ he', hme'⟩
    · intro conv hconv
      rcases List.mem_append.mp hconv with hconv | hconv
      · obtain ⟨m0, tl, n, slug, a1, a2, a3, a4, a5, a6, a7, a8, a9⟩ :=
          hfields1 conv hconv
        have hwmem : conv.messages ∈ find_conversation_windows v cw uid ip am := by
          rw [← hmsgs1]
          exact List.mem_map_of_mem Conversation.messages hconv
        obtain ⟨msg, tl', hw1, hw2, hw3, hw4⟩ := hwspec conv.messages hwmem
        have hmt : msg = m0 ∧ tl' = tl := by
          rw [a5] at hw1
          exact ⟨(List.cons.injEq _ _ _ _ ▸ hw1).1.symm,
            (List.cons.injEq _ _ _ _ ▸ hw1).2.symm⟩
        obtain ⟨rfl, rfl⟩ := hmt
        refine ⟨msg, tl', n, slug, a1, a2, a3, a4, a5, a6, a7, a8, a9, hw3, hw2, ?_⟩
        intro m hmm
        have hmv : m ∈ v := by
          have := hw4 m hmm
          rw [List.enum_map_snd] at this
          exact (sortMsgs_perm v).mem_iff.mp this
        have := hvspace m hmv
        refine ⟨this.2, ?_⟩
        rw [this.1, a3]
        have hm0v : msg ∈ v := by
          have := hw4 msg (by rw [a5]; exact List.mem_cons_self _ _)
          rw [List.enum_map_snd] at this
          exact (sortMsgs_perm v).mem_iff.mp this
        rw [(hvspace msg hm0v).1]
      · obtain ⟨m0, tl, n, slug, a1, a2, a3, a4, a5, a6, a7, a8, a9, a10, a11, a12⟩ :=
          hfields2 conv hconv
        have hcc1 : c ≤ c1 := by
          rw [hc1]
          omega
        exact ⟨m0, tl, n, slug, a1, le_trans hcc1 a2, a3, a4, a5, a6, a7, a8, a9,
          a10, a11, a12⟩

/-! ## Structure of the group pass -/

theorem perm_any_eq {l₁ l₂ : List Message} (h : l₁.Perm l₂) (p : Message → Bool) :
    l₁.any p = l₂.any p := by
  rw [Bool.eq_iff_iff, List.any_eq_true, List.any_eq_true]
  constructor
  · rintro ⟨x, hx, hp⟩
    exact ⟨x, h.mem_iff.mp hx, hp⟩
  · rintro ⟨x, hx, hp⟩
    exact ⟨x, h.mem_iff.mpr hx, hp⟩

theorem hasThreadId_unique {k k' : String} {m : Message}
    (h1 : hasThreadId k m = true) (h2 : hasThreadId k' m = true) : k = k' := by
  unfold hasThreadId at h1 h2
  rcases hm : m.thread with _ | t
  · rw [hm] at h1
    exact absurd h1 (by simp)
  · rw [hm] at h1 h2
    simp only [decide_eq_true_eq] at h1 h2
    rw [← h1, ← h2]

/-- The flattened buckets of a thread dictionary have distinct message ids:
buckets are filters of one duplicate-free list by distinct thread ids. -/
theorem bucketsFlatNodup (S : List Message) :
    ∀ (tcl : List (String × List Message)),
      (tcl.map Prod.fst).Nodup →
      (∀ e ∈ tcl, e.2 = S.filter (hasThreadId e.1)) →
      (S.map Message.id).Nodup →
      (((tcl.map Prod.snd).flatten).map Message.id).Nodup := by
  intro tcl
  induction tcl with
  | nil => intro _ _ _; simp
  | cons e rest ih =>
    intro hkeys hflt hS
    obtain ⟨k, v⟩ := e
    have hkeysrest : (rest.map Prod.fst).Nodup := by
      simp only [List.map_cons] at hkeys
      exact hkeys.of_cons
    have hknotin : k ∉ rest.map Prod.fst := by
      simp only [List.map_cons] at hkeys
      exact (List.nodup_cons.mp hkeys).1
    have hv : v = S.filter (hasThreadId k) := hflt (k, v) (List.mem_cons_self _ _)
    have hrec := ih hkeysrest (fun e he => hflt e (List.mem_cons_of_mem _ he)) hS
    simp only [List.map_cons, List.flatten_cons, List.map_append]
    rw [List.nodup_append]
    refine ⟨?_, hrec, ?_⟩
    · rw [hv]
      exact ((List.filter_sublist S).map Message.id).nodup hS
    · intro x hx hx'
      obtain ⟨m, hm, rfl⟩ := List.mem_map.mp hx
      obtain ⟨m', hm', hid⟩ := List.mem_map.mp hx'
      obtain ⟨l', hl', hml'⟩ := List.mem_flatten.mp hm'
      obtain ⟨e', he', hle'⟩ := List.mem_map.mp hl'
      rw [← hle', hflt e' (List.mem_cons_of_mem _ he')] at hml'
      have hmf := List.mem_filter.mp hml'
      rw [hv] at hm
      have hmf2 := List.mem_filter.mp hm
      have heq : m = m' :=
        List.inj_on_of_nodup_map hS hmf2.1 hmf.1 hid.symm
      subst heq
      apply hknotin
      have hkk : k = e'.1 := hasThreadId_unique hmf2.2 hmf.2
      rw [hkk]
      exact List.mem_map_of_mem Prod.fst he'

theorem used0_cond (S : List Message) :
    ∀ p ∈ S.enum,
      (p.1 ∈ (S.enum.filter (fun q => q.2.thread.isSome)).map Prod.fst ↔
        p.2.thread.isSome = true) := by
  intro p hp
  constructor
  · intro h
    obtain ⟨q, hq, hq1⟩ := List.mem_map.mp h
    have hqf := List.mem_filter.mp hq
    have heq : q = p := List.inj_on_of_nodup_map (enum_fst_nodup S) hqf.1 hp hq1
    rw [← heq]
    exact hqf.2
  · intro h
    exact List.mem_map_of_mem Prod.fst (List.mem_filter.mpr ⟨hp, h⟩)

theorem ggcSpaces_cons_skip {cw : Int} {uid : String} {am : Bool} {k : String}
    {v : List Message} {rest : List (String × List Message)} {c : Nat}
    (hp : ¬((sortMsgs v).any (fun m => m.sender.id = uid)) ∧ ¬am) :
    ggcSpaces cw uid am ((k, v) :: rest) c = ggcSpaces cw uid am rest c := by
  simp only [ggcSpaces, if_pos hp]

theorem ggcSpaces_cons_go {cw : Int} {uid : String} {am : Bool} {k : String}
    {v : List Message} {rest : List (String × List Message)} {c : Nat}
    (hp : ¬(¬((sortMsgs v).any (fun m => m.sender.id = uid)) ∧ ¬am)) :
    ggcSpaces cw uid am ((k, v) :: rest) c =
      (ctcLoop (_group_threaded_messages (sortMsgs v)).2 uid am
          (_group_threaded_messages (sortMsgs v)).1 c).1 ++
        _group_non_threaded_messages (sortMsgs v) cw uid
          (((sortMsgs v).enum.filter (fun p => p.2.thread.isSome)).map Prod.fst)
          (ctcLoop (_group_threaded_messages (sortMsgs v)).2 uid am
            (_group_threaded_messages (sortMsgs v)).1 c).2 am ++
        ggcSpaces cw uid am rest
          ((ctcLoop (_group_threaded_messages (sortMsgs v)).2 uid am
              (_group_threaded_messages (sortMsgs v)).1 c).2 +
            (_group_non_threaded_messages (sortMsgs v) cw uid
              (((sortMsgs v).enum.filter (fun p => p.2.thread.isSome)).map Prod.fst)
              (ctcLoop (_group_threaded_messages (sortMsgs v)).2 uid am
                (_group_threaded_messages (sortMsgs v)).1 c).2 am).length) := by
  simp only [ggcSpaces, if_neg hp, _create_thread_conversations]

/-- Master lemma for the group pass over a space dictionary: counter
discipline, no double-claiming of message ids, and the shape of every
emitted conversation (threaded or windowed). -/
theorem ggcSpaces_spec (cw : Int) (uid : String) (am : Bool) (msgs0 : List Message) :
    ∀ (spaces : List (String × List Message)) (c : Nat),
      (spaces.map Prod.fst).Nodup →
      (∀ e ∈ spaces, ∀ m ∈ e.2, m.space_id = e.1 ∧ m ∈ msgs0) →
      CounterIds c (ggcSpaces cw uid am spaces c) ∧
      ((∀ e ∈ spaces, ((e.2).map Message.id).Nodup) →
        (∀ m m' : Message, m ∈ msgs0 → m' ∈ msgs0 → m.id = m'.id → m = m') →
        (((ggcSpaces cw uid am spaces c).map Conversation.messages).flatten.map
          Message.id).Nodup) ∧
      (∀ m ∈ ((ggcSpaces cw uid am spaces c).map Conversation.messages).flatten,
        ∃ e ∈ spaces, m ∈ e.2) ∧
      (∀ conv ∈ ggcSpaces cw uid am spaces c, ∃ e,
        e ∈ spaces ∧
        (e.2.any (fun m => m.sender.id = uid) = true ∨ am = true) ∧
        ∃ m0 tl n, c ≤ n ∧ conv.messages = m0 :: tl ∧
          conv.space_id = m0.space_id ∧ conv.space_type = m0.space_type ∧
          conv.start_time = m0.timestamp ∧
          conv.end_time = (tl.getLastD m0).timestamp ∧
          conv.duration_seconds = (tl.getLastD m0).timestamp - m0.timestamp ∧
          SortedTS (m0 :: tl) ∧
          (∀ m ∈ conv.messages, m ∈ e.2 ∧ m.space_id = conv.space_id) ∧
          ((conv.is_threaded = true ∧
            conv.id = "group-thread-" ++ slugify m0.space_name ++ "-" ++ Nat.repr n) ∨
           (conv.is_threaded = false ∧
            conv.id = "group-nonthread-" ++ slugify m0.space_name ++ "-" ++ Nat.repr n ∧
            (∀ m ∈ tl, m0.timestamp ≤ m.timestamp ∧
              m.timestamp ≤ m0.timestamp + cw)))) := by
  intro spaces
  induction spaces with
  | nil =>
    intro c _ _
    exact ⟨counterIds_nil c, fun _ _ => by simp [ggcSpaces], by simp [ggcSpaces],
      by simp [ggcSpaces]⟩
  | cons e rest ih =>
    intro c hkeys hbuckets
    obtain ⟨k, v⟩ := e
    have hkeysrest : (rest.map Prod.fst).Nodup := by
      simp only [List.map_cons] at hkeys
      exact hkeys.of_cons
    have hknotin : k ∉ rest.map Prod.fst := by
      simp only [List.map_cons] at hkeys
      exact (List.nodup_cons.mp hkeys).1
    have hbrest : ∀ e ∈ rest, ∀ m ∈ e.2, m.space_id = e.1 ∧ m ∈ msgs0 :=
      fun e he => hbuckets e (List.mem_cons_of_mem _ he)
    by_cases hp : ¬((sortMsgs v).any (fun m => m.sender.id = uid)) ∧ ¬am
    · rw [ggcSpaces_cons_skip hp]
      obtain ⟨g1, g2, g3, g4⟩ := ih c hkeysrest hbrest
      refine ⟨g1, fun hn hinj => g2 (fun e he => hn e (List.mem_cons_of_mem _ he)) hinj,
        ?_, ?_⟩
      · intro m hm
        obtain ⟨e, he, hme⟩ := g3 m hm
        exact ⟨e, List.mem_cons_of_mem _ he, hme⟩
      · intro conv hconv
        obtain ⟨e, he, hrest⟩ := g4 conv hconv
        exact ⟨e, List.mem_cons_of_mem _ he, hrest⟩
    · rw [ggcSpaces_cons_go hp]
      set S := sortMsgs v with hS
      have hSsorted : SortedTS S := sortMsgs_sorted v
      have hSperm : S.Perm v := sortMsgs_perm v
      set tcl := (_group_threaded_messages S).1 with htcl
      set town := (_group_threaded_messages S).2 with htown
      have hDI : DictInv hasThreadId S tcl := gtm_spec S
      set T := (ctcLoop town uid am tcl c).1 with hT
      have hnext : (ctcLoop town uid am tcl c).2 = c + T.length :=
        ctcLoop_next town uid am tcl c
      set next := (ctcLoop town uid am tcl c).2 with hnextdef
      set used0 := ((S.enum.filter (fun p => p.2.thread.isSome)).map Prod.fst)
        with hused0
      have hNTdef : _group_non_threaded_messages S cw uid used0 next am =
          gntOuter cw uid am S.enum used0 next := by
        unfold _group_non_threaded_messages
        rw [hS, sortMsgs_idem]
      set NT := _group_non_threaded_messages S cw uid used0 next am with hNT
      have hesort : S.enum.Pairwise
          (fun p q : Nat × Message => p.2.timestamp ≤ q.2.timestamp) :=
        enum_sorted hSsorted
      -- facts about the thread buckets
      have htclentry : ∀ e ∈ tcl, e.2 = S.filter (hasThreadId e.1) := fun e he =>
        hDI.2.1 e he
      have htclsrc : ∀ e ∈ tcl, SortedTS e.2 ∧ ∀ m ∈ e.2, m ∈ S := by
        intro e he
        rw [htclentry e he]
        exact ⟨hSsorted.sublist (List.filter_sublist S),
          fun m hm => (List.filter_sublist S).mem hm⟩
      have hTspec := ctcLoop_convs_spec town uid am S tcl c htclsrc
      have hTmsgs := ctcLoop_messages town uid am tcl c
      -- facts about the non-threaded pass
      have hNTspec' := gntOuter_convs_spec cw uid am S.enum used0 next hesort
      have hNTsub : List.Sublist ((NT.map Conversation.messages).flatten)
          ((S.enum.filter (fun p => p.2.thread.isNone)).map Prod.snd) := by
        rw [hNTdef]
        exact gntOuter_flatten_sublist cw uid am S.enum used0 next [] S.enum rfl
          (by simp) (fun p hp => used0_cond S p hp) hesort (enum_fst_nodup S)
      have hfmemS : ∀ m ∈ ((S.enum.filter
          (fun p : Nat × Message => p.2.thread.isNone)).map Prod.snd), m ∈ S := by
        intro m hm
        obtain ⟨p, hpf, rfl⟩ := List.mem_map.mp hm
        have hpe : p ∈ S.enum := (List.filter_sublist _).mem hpf
        have := List.mem_map_of_mem Prod.snd hpe
        rw [List.enum_map_snd] at this
        exact this
      -- membership of the threaded flatten in S
      have hTmemS : ∀ m ∈ ((T.map Conversation.messages).flatten), m ∈ S := by
        intro m hm
        obtain ⟨l', hl', hml'⟩ := List.mem_flatten.mp hm
        rw [hT, hTmsgs] at hl'
        obtain ⟨e, he, hle⟩ := List.mem_map.mp hl'
        have he2 : e ∈ tcl := (List.filter_sublist _).mem he
        rw [← hle, htclentry e he2] at hml'
        exact (List.filter_sublist S).mem hml'
      obtain ⟨g1, g2, g3, g4⟩ := ih (next + NT.length) hkeysrest hbrest
      refine ⟨?_, ?_, ?_, ?_⟩
      · -- counters
        apply counterIds_append
        · apply counterIds_append
          · rw [hT]
            exact ctcLoop_counterIds town uid am tcl c
          · rw [hNTdef, ← hnext]
            exact gntOuter_counterIds cw uid am S.enum used0 next
        · rw [List.length_append, ← Nat.add_assoc, ← hnext]
          exact g1
      · -- nodup ids of the flattened messages
        intro hbnodup hinj
        have hSid : (S.map Message.id).Nodup := by
          have := hbnodup (k, v) (List.mem_cons_self _ _)
          exact (hSperm.map Message.id).nodup_iff.mpr this
        have hTnodup : (((T.map Conversation.messages).flatten).map Message.id).Nodup := by
          rw [hT, hTmsgs]
          apply bucketsFlatNodup S
          · exact ((List.filter_sublist tcl).map Prod.fst).nodup hDI.1
          · intro e he
            exact htclentry e ((List.filter_sublist _).mem he)
          · exact hSid
        have hNTnodup : (((NT.map Conversation.messages).flatten).map Message.id).Nodup := by
          apply (hNTsub.map Message.id).nodup
          apply List.Nodup.sublist _ hSid
          apply List.Sublist.map
          have h1 : List.Sublist (S.enum.filter
              (fun p : Nat × Message => p.2.thread.isNone)) S.enum :=
            List.filter_sublist _
          have h2 := h1.map Prod.snd
          rw [List.enum_map_snd] at h2
          exact h2
        have hrestnodup := g2 (fun e he => hbnodup e (List.mem_cons_of_mem _ he)) hinj
        have hSm : ∀ m ∈ S, m ∈ msgs0 := by
          intro m hm
          exact (hbuckets (k, v) (List.mem_cons_self _ _) m (hSperm.mem_iff.mp hm)).2
        rw [List.map_append, List.map_append, List.flatten_append,
          List.flatten_append, List.map_append, List.map_append]
        rw [List.nodup_append]
        refine ⟨?_, hrestnodup, ?_⟩
        · rw [List.nodup_append]
          refine ⟨hTnodup, hNTnodup, ?_⟩
          intro x hx hx'
          obtain ⟨m, hm, rfl⟩ := List.mem_map.mp hx
          obtain ⟨m', hm', hid⟩ := List.mem_map.mp hx'
          -- m is threaded, m' is not
          obtain ⟨l', hl', hml'⟩ := List.mem_flatten.mp hm
          rw [hT, hTmsgs] at hl'
          obtain ⟨e, he, hle⟩ := List.mem_map.mp hl'
          have he2 : e ∈ tcl := (List.filter_sublist _).mem he
          rw [← hle, htclentry e he2] at hml'
          have hmth : hasThreadId e.1 m = true := (List.mem_filter.mp hml').2
          obtain ⟨p, hpf, hpm⟩ := List.mem_map.mp (hNTsub.mem hm')
          have hpiso := (List.mem_filter.mp hpf).2
          have heqm : m = m' := List.inj_on_of_nodup_map hSid
            (List.mem_filter.mp hml').1
            (hfmemS m' (List.mem_map.mpr ⟨p, hpf, hpm⟩)) hid.symm
          have hiso' : m.thread.isNone = true := by
            rw [heqm, ← hpm]
            exact hpiso
          unfold hasThreadId at hmth
          rcases hmt : m.thread with _ | t
          · rw [hmt] at hmth
            exact absurd hmth (by simp)
          · rw [hmt] at hiso'
            exact absurd hiso' (by simp)
        · intro x hx hx'
          have hxm : ∃ m, (m ∈ ((T.map Conversation.messages).flatten) ∨
              m ∈ ((NT.map Conversation.messages).flatten)) ∧ m.id = x := by
            rcases List.mem_append.mp hx with h | h
            · obtain ⟨m, hm, rfl⟩ := List.mem_map.mp h
              exact ⟨m, Or.inl hm, rfl⟩
            · obtain ⟨m, hm, rfl⟩ := List.mem_map.mp h
              exact ⟨m, Or.inr hm, rfl⟩
          obtain ⟨m, hm, rfl⟩ := hxm
          obtain ⟨m', hm', hid⟩ := List.mem_map.mp hx'
          obtain ⟨e', he', hme'⟩ := g3 m' hm'
          have hmS : m ∈ S := by
            rcases hm with h | h
            · exact hTmemS m h
            · exact hfmemS m (hNTsub.mem h)
          have h1 : m.space_id = k ∧ m ∈ msgs0 :=
            hbuckets (k, v) (List.mem_cons_self _ _) m (hSperm.mem_iff.mp hmS)
          have h2 := hbrest e' he' m' hme'
          have heqm : m = m' := hinj m m' h1.2 h2.2 hid.symm
          apply hknotin
          have hk' : e'.1 = k := by
            rw [← h2.1, ← heqm, h1.1]
          rw [← hk']
          exact List.mem_map_of_mem Prod.fst he'
      · -- provenance of every flattened message
        intro m hm
        rw [List.map_append, List.map_append, List.flatten_append,
          List.flatten_append] at hm
        rcases List.mem_append.mp hm with hm | hm
        · rcases List.mem_append.mp hm with hm | hm
          · exact ⟨(k, v), List.mem_cons_self _ _, hSperm.mem_iff.mp (hTmemS m hm)⟩
          · exact ⟨(k, v), List.mem_cons_self _ _,
              hSperm.mem_iff.mp (hfmemS m (hNTsub.mem hm))⟩
        · obtain ⟨e, he, hme⟩ := g3 m hm
          exact ⟨e, List.mem_cons_of_mem _ he, hme⟩
      · -- the shape of every conversation
        intro conv hconv
        have hpart : v.any (fun m => m.sender.id = uid) = true ∨ am = true := by
          rw [not_and_or] at hp
          rcases hp with hp | hp
          · left
            rw [not_not] at hp
            rw [← perm_any_eq hSperm]
            exact hp
          · right
            simpa using hp
        have hspacemem : ∀ m ∈ S, m ∈ v := fun m hm => hSperm.mem_iff.mp hm
        have hspaceid : ∀ m ∈ S, m.space_id = k := fun m hm =>
          (hbuckets (k, v) (List.mem_cons_self _ _) m (hSperm.mem_iff.mp hm)).1
        rcases List.mem_append.mp hconv with hc | hc
        · rcases List.mem_append.mp hc with hc | hc
          · -- threaded conversation
            obtain ⟨m0, tl, n, b1, b2, b3, b4, b5, b6, b7, b8, b9, b10, b11⟩ :=
              hTspec conv hc
            refine ⟨(k, v), List.mem_cons_self _ _, hpart, m0, tl, n, b2, b5, b3,
              b4, b6, b7, b8, b10, ?_, Or.inl ⟨b9, b1⟩⟩
            intro m hm
            refine ⟨hspacemem m (b11 m hm), ?_⟩
            rw [b3]
            rw [hspaceid m (b11 m hm)]
            have hm0S : m0 ∈ S := b11 m0 (by rw [b5]; exact List.mem_cons_self _ _)
            rw [hspaceid m0 hm0S]
          · -- non-threaded conversation
            rw [hNTdef] at hc
            obtain ⟨m0, tl, n, b1, b2, b3, b4, b5, b6, b7, b8, b9, b10, b11, b12⟩ :=
              hNTspec' conv hc
            have hmemS : ∀ m ∈ conv.messages, m ∈ S := by
              intro m hm
              have := b12 m hm
              rw [List.enum_map_snd] at this
              exact this
            refine ⟨(k, v), List.mem_cons_self _ _, hpart, m0, tl, n,
              le_trans (by rw [hnext]; omega) b2, b5, b3, b4, b6, b7, b8, b11, ?_,
              Or.inr ⟨b9, b1, b10⟩⟩
            intro m hm
            refine ⟨hspacemem m (hmemS m hm), ?_⟩
            rw [b3, hspaceid m (hmemS m hm),
              hspaceid m0 (hmemS m0 (by rw [b5]; exact List.mem_cons_self _ _))]
        · obtain ⟨e, he, hany, m0, tl, n, d1, drest⟩ := g4 conv hc
          refine ⟨e, List.mem_cons_of_mem _ he, hany, m0, tl, n, ?_, drest⟩
          have : c ≤ next + NT.length := by
            rw [hnext]
            omega
          omega

/-! ## Wrapper lemmas for the two grouping passes -/

theorem ggc_eq_spaces {messages : List Message} (h : messages ≠ []) (cw : Int)
    (uid : String) (am : Bool) :
    group_group_conversations messages cw uid am =
      ggcSpaces cw uid am (group_messages_by_space messages) 1 := by
  cases messages with
  | nil => exact absurd rfl h
  | cons m rest => rfl

/-- Facts about `group_group_conversations` on an arbitrary input. -/
theorem group_group_conversations_spec (messages : List Message) (cw : Int)
    (uid : String) (am : Bool) :
    CounterIds 1 (group_group_conversations messages cw uid am) ∧
    ((messages.map Message.id).Nodup →
      (((group_group_conversations messages cw uid am).map
        Conversation.messages).flatten.map Message.id).Nodup) ∧
    (∀ m ∈ ((group_group_conversations messages cw uid am).map
        Conversation.messages).flatten, m ∈ messages) ∧
    (∀ conv ∈ group_group_conversations messages cw uid am,
      ∃ m0 tl n, conv.messages = m0 :: tl ∧
        conv.space_id = m0.space_id ∧ conv.space_type = m0.space_type ∧
        conv.start_time = m0.timestamp ∧
        conv.end_time = (tl.getLastD m0).timestamp ∧
        conv.duration_seconds = (tl.getLastD m0).timestamp - m0.timestamp ∧
        SortedTS (m0 :: tl) ∧
        (∀ m ∈ conv.messages, m ∈ messages ∧ m.space_id = conv.space_id) ∧
        (am = true ∨ ∃ mp, mp ∈ messages ∧ mp.space_id = conv.space_id ∧
          mp.sender.id = uid) ∧
        ((conv.is_threaded = true ∧
          conv.id = "group-thread-" ++ slugify m0.space_name ++ "-" ++ Nat.repr n) ∨
         (conv.is_threaded = false ∧
          conv.id = "group-nonthread-" ++ slugify m0.space_name ++ "-" ++ Nat.repr n ∧
          (∀ m ∈ tl, m0.timestamp ≤ m.timestamp ∧
            m.timestamp ≤ m0.timestamp + cw)))) := by
  rcases hmsgs : messages with _ | ⟨m₁, mrest⟩
  · refine ⟨counterIds_nil 1, fun _ => by simp [group_group_conversations],
      by simp [group_group_conversations], by simp [group_group_conversations]⟩
  · rw [← hmsgs]
    have hne : messages ≠ [] := by rw [hmsgs]; exact List.cons_ne_nil _ _
    rw [ggc_eq_spaces hne]
    have hdi := gmbs_spec messages
    have hbuckets : ∀ e ∈ group_messages_by_space messages, ∀ m ∈ e.2,
        m.space_id = e.1 ∧ m ∈ messages := by
      intro e he m hm
      rw [hdi.2.1 e he] at hm
      have := List.mem_filter.mp hm
      exact ⟨by simpa using this.2, this.1⟩
    obtain ⟨g1, g2, g3, g4⟩ := ggcSpaces_spec cw uid am messages
      (group_messages_by_space messages) 1 hdi.1 hbuckets
    refine ⟨g1, ?_, ?_, ?_⟩
    · intro hnodup
      apply g2
      · intro e he
        rw [hdi.2.1 e he]
        exact ((List.filter_sublist messages).map Message.id).nodup hnodup
      · exact fun m m' hm hm' => List.inj_on_of_nodup_map hnodup hm hm'
    · intro m hm
      obtain ⟨e, he, hme⟩ := g3 m hm
      exact (hbuckets e he m hme).2
    · intro conv hconv
      obtain ⟨e, he, hany, m0, tl, n, b1, b2, b3, b4, b5, b6, b7, b8, b9, b10⟩ :=
        g4 conv hconv
      have hconvmem : ∀ m ∈ conv.messages, m ∈ messages ∧ m.space_id = conv.space_id := by
        intro m hm
        exact ⟨(hbuckets e he m (b9 m hm).1).2, (b9 m hm).2⟩
      have hspace : conv.space_id = e.1 := by
        have hm0 : m0 ∈ conv.messages := by rw [b2]; exact List.mem_cons_self _ _
        have hb := hbuckets e he m0 (b9 m0 hm0).1
        rw [← (b9 m0 hm0).2]
        exact hb.1
      refine ⟨m0, tl, n, b2, b3, b4, b5, b6, b7, b8, hconvmem, ?_, b10⟩
      rcases hany with hany | ham
      · right
        obtain ⟨mp, hmp, hmps⟩ := List.any_eq_true.mp hany
        refine ⟨mp, (hbuckets e he mp hmp).2, ?_, by simpa using hmps⟩
        rw [hspace]
        exact (hbuckets e he mp hmp).1
      · exact Or.inl ham

theorem gdm_eq_spaces {messages : List Message} (h : messages ≠ []) (cw : Int)
    (uid : String) (ip : Bool) (client : Option WebexClientModel) (am : Bool)
    (cache : PersonCache) {convs : List Conversation} {c' : Nat}
    {cache' : PersonCache}
    (hok : gdmSpaces cw uid ip client am (group_messages_by_space messages) 1 cache =
      .ok (convs, c', cache')) :
    group_dm_conversations messages cw uid ip client am cache = .ok (convs, cache') := by
  cases messages with
  | nil => exact absurd rfl h
  | cons m rest =>
    unfold group_dm_conversations
    rw [hok]

/-! ## Extremal elements of sorted message lists -/

theorem sortedTS_head_le {m0 : Message} {tl : List Message}
    (h : SortedTS (m0 :: tl)) : ∀ m ∈ m0 :: tl, m0.timestamp ≤ m.timestamp := by
  have h2 : List.Pairwise (fun a b : Message => a.timestamp ≤ b.timestamp)
      (m0 :: tl) := h
  intro m hm
  rcases List.mem_cons.mp hm with rfl | hm
  · exact le_refl _
  · exact (List.pairwise_cons.mp h2).1 m hm

theorem sortedTS_le_last :
    ∀ (tl : List Message) (m0 : Message), SortedTS (m0 :: tl) →
      ∀ m ∈ m0 :: tl, m.timestamp ≤ (tl.getLastD m0).timestamp := by
  intro tl
  induction tl with
  | nil =>
    intro m0 _ m hm
    rcases List.mem_cons.mp hm with rfl | hm
    · exact le_refl _
    · exact absurd hm (List.not_mem_nil m)
  | cons a tl ih =>
    intro m0 h m hm
    have h2 : List.Pairwise (fun a b : Message => a.timestamp ≤ b.timestamp)
        (m0 :: a :: tl) := h
    have h' : SortedTS (a :: tl) := (List.pairwise_cons.mp h2).2
    rw [List.getLastD_cons]
    rcases List.mem_cons.mp hm with rfl | hm
    · exact le_trans ((List.pairwise_cons.mp h2).1 a (List.mem_cons_self _ _))
        (ih a h' a (List.mem_cons_self _ _))
    · exact ih a h' m hm

/-! ## The sender dictionary of a window -/

theorem dictInsert_vals {β : Type} (d : List (String × β)) (k : String) (v : β) :
    ∀ u ∈ (dictInsert d k v).map Prod.snd, u ∈ d.map Prod.snd ∨ u = v := by
  intro u hu
  unfold dictInsert at hu
  by_cases hk : d.any (fun p => p.1 = k)
  · rw [if_pos hk] at hu
    rw [List.map_map] at hu
    obtain ⟨p, hp, hpu⟩ := List.mem_map.mp hu
    by_cases hpk : p.1 = k
    · right
      rw [← hpu]
      simp only [Function.comp_apply, if_pos hpk]
    · left
      rw [← hpu]
      simp only [Function.comp_apply, if_neg hpk]
      exact List.mem_map_of_mem Prod.snd hp
  · rw [if_neg hk] at hu
    rw [List.map_append] at hu
    rcases List.mem_append.mp hu with hu | hu
    · exact Or.inl hu
    · right
      rcases List.mem_singleton.mp hu with rfl
      rfl

theorem sendersDict_fold :
    ∀ (msgs : List Message) (d : List (String × User)),
      ∀ u ∈ ((msgs.foldl (fun d m => dictInsert d m.sender.id m.sender) d).map
        Prod.snd), u ∈ d.map Prod.snd ∨ ∃ m ∈ msgs, u = m.sender := by
  intro msgs
  induction msgs with
  | nil => intro d u hu; exact Or.inl hu
  | cons m ms ih =>
    intro d u hu
    rcases ih (dictInsert d m.sender.id m.sender) u hu with hu | ⟨m', hm', rfl⟩
    · rcases dictInsert_vals d m.sender.id m.sender u hu with hu | rfl
      · exact Or.inl hu
      · exact Or.inr ⟨m, List.mem_cons_self _ _, rfl⟩
    · exact Or.inr ⟨m', List.mem_cons_of_mem _ hm', rfl⟩

/-- When every sender of the window is the authenticated user, the search
for another participant comes up empty. -/
theorem find_other_none (msgs : List Message) (uid : String)
    (h : ∀ m ∈ msgs, m.sender.id = uid) :
    ((sendersDict msgs).map Prod.snd).find? (fun p => p.id ≠ uid) = none := by
  rw [List.find?_eq_none]
  intro p hp
  rcases sendersDict_fold msgs [] p hp with hp0 | ⟨m, hm, rfl⟩
  · exact absurd hp0 (List.not_mem_nil p)
  · simp [h m hm]

/-! ## First characters of the three id families -/

theorem id_head_dm (s t : String) :
    ("dm-" ++ s ++ "-" ++ t).data.head? = some 'd' := by
  have h1 : ("dm-" ++ s ++ "-" ++ t).data =
      "dm-".data ++ s.data ++ "-".data ++ t.data := by
    simp [String.data_append]
  rw [h1]
  rfl

theorem id_head_gthread (s t : String) :
    ("group-thread-" ++ s ++ "-" ++ t).data.head? = some 'g' := by
  have h1 : ("group-thread-" ++ s ++ "-" ++ t).data =
      "group-thread-".data ++ s.data ++ "-".data ++ t.data := by
    simp [String.data_append]
  rw [h1]
  rfl

theorem id_head_gnonthread (s t : String) :
    ("group-nonthread-" ++ s ++ "-" ++ t).data.head? = some 'g' := by
  have h1 : ("group-nonthread-" ++ s ++ "-" ++ t).data =
      "group-nonthread-".data ++ s.data ++ "-".data ++ t.data := by
    simp [String.data_append]
  rw [h1]
  rfl

/-! ## Reductions of `build_dm_conversation` when no other sender appears -/

theorem build_dm_conversation_none_red (m0 : Message) (rest : List Message)
    (uid : String) (cid : Nat) (cache : PersonCache)
    (hother : ((sendersDict (m0 :: rest)).map Prod.snd).find?
      (fun p => p.id ≠ uid) = none) :
    build_dm_conversation (m0 :: rest) uid cid none cache =
      .ok ({ id := "dm-" ++ "unknown" ++ "-" ++ Nat.repr cid,
             space_id := m0.space_id,
             space_type := m0.space_type,
             participants := (sendersDict (m0 :: rest)).map Prod.snd,
             messages := m0 :: rest,
             start_time := m0.timestamp,
             end_time := (rest.getLastD m0).timestamp,
             duration_seconds := (rest.getLastD m0).timestamp - m0.timestamp,
             is_threaded := false }, cache) := by
  unfold build_dm_conversation
  simp only []
  rw [hother]
  rfl

theorem build_dm_conversation_some_red (m0 : Message) (rest : List Message)
    (uid : String) (cid : Nat) (cl : WebexClientModel) (cache : PersonCache)
    (hother : ((sendersDict (m0 :: rest)).map Prod.snd).find?
      (fun p => p.id ≠ uid) = none) :
    build_dm_conversation (m0 :: rest) uid cid (some cl) cache =
      .ok ({ id := "dm-" ++
               slugify (match (tryResolveOther cl m0.space_id uid cache).1 with
                 | some p => p.display_name
                 | none => "unknown") ++ "-" ++ Nat.repr cid,
             space_id := m0.space_id,
             space_type := m0.space_type,
             participants := (sendersDict (m0 :: rest)).map Prod.snd,
             messages := m0 :: rest,
             start_time := m0.timestamp,
             end_time := (rest.getLastD m0).timestamp,
             duration_seconds := (rest.getLastD m0).timestamp - m0.timestamp,
             is_threaded := false },
           (tryResolveOther cl m0.space_id uid cache).2) := by
  unfold build_dm_conversation
  simp only []
  rw [hother]
  rfl

/-! ## Top-level facts about the DM pass -/

theorem group_dm_conversations_spec (messages : List Message) (cw : Int)
    (uid : String) (ip : Bool) (client : Option WebexClientModel) (am : Bool)
    (cache : PersonCache) (convs : List Conversation) (cacheF : PersonCache)
    (hok : group_dm_conversations messages cw uid ip client am cache =
      .ok (convs, cacheF)) :
    CounterIds 1 convs ∧
    ((messages.map Message.id).Nodup →
      ((convs.map Conversation.messages).flatten.map Message.id).Nodup) ∧
    (∀ m ∈ (convs.map Conversation.messages).flatten, m ∈ messages) ∧
    (∀ conv ∈ convs, ∃ m0 tl n slug,
      conv.id = "dm-" ++ slug ++ "-" ++ Nat.repr n ∧
      conv.space_id = m0.space_id ∧ conv.space_type = m0.space_type ∧
      conv.messages = m0 :: tl ∧ conv.start_time = m0.timestamp ∧
      conv.end_time = (tl.getLastD m0).timestamp ∧
      conv.duration_seconds = (tl.getLastD m0).timestamp - m0.timestamp ∧
      conv.is_threaded = false ∧ SortedTS (m0 :: tl) ∧
      (∀ m ∈ tl, m0.timestamp ≤ m.timestamp ∧ m.timestamp ≤ m0.timestamp + cw) ∧
      (∀ m ∈ conv.messages, m ∈ messages ∧ m.space_id = conv.space_id)) := by
  cases messages with
  | nil =>
    have h2 : (Except.ok (([] : List Conversation), cache) :
        Except PyErr (List Conversation × PersonCache)) = .ok (convs, cacheF) := hok
    injection h2 with h3
    injection h3 with h4 h5
    subst h4
    exact ⟨counterIds_nil 1, fun _ => by simp, by simp, by simp⟩
  | cons m1 mrest =>
    have hdi := gmbs_spec (m1 :: mrest)
    have hbuckets : ∀ e ∈ group_messages_by_space (m1 :: mrest), ∀ m ∈ e.2,
        m.space_id = e.1 ∧ m ∈ (m1 :: mrest) := by
      intro e he m hmm
      rw [hdi.2.1 e he] at hmm
      have := List.mem_filter.mp hmm
      exact ⟨by simpa using this.2, this.1⟩
    obtain ⟨convs1, c1, cache1, hok1, hc1, hcids1, hnodup1, hmem1, hfields1⟩ :=
      gdmSpaces_spec cw uid ip am client (m1 :: mrest)
        (group_messages_by_space (m1 :: mrest)) 1 cache hdi.1 hbuckets
    have hgdm := gdm_eq_spaces (List.cons_ne_nil m1 mrest) cw uid ip client am
      cache hok1
    rw [hgdm] at hok
    have h2 : (Except.ok (convs1, cache1) :
        Except PyErr (List Conversation × PersonCache)) = .ok (convs, cacheF) := hok
    injection h2 with h3
    injection h3 with h4 h5
    subst h4
    refine ⟨hcids1, ?_, ?_, ?_⟩
    · intro hmn
      apply hnodup1
      · intro e he
        rw [hdi.2.1 e he]
        exact ((List.filter_sublist _).map Message.id).nodup hmn
      · exact fun m m' hm hm' => List.inj_on_of_nodup_map hmn hm hm'
    · intro m hmm
      obtain ⟨e, he, hme⟩ := hmem1 m hmm
      exact (hbuckets e he m hme).2
    · intro conv hconv
      obtain ⟨m0, tl, n, slug, a1, a2, a3, a4, a5, a6, a7, a8, a9, a10, a11, a12⟩ :=
        hfields1 conv hconv
      exact ⟨m0, tl, n, slug, a1, a3, a4, a5, a6, a7, a8, a9, a10, a11, a12⟩

/-! ## Master facts about `group_all_conversations` -/

theorem gac_eq (messages : List Message) (cw : Int) (uid : String) (ip : Bool)
    (client : Option WebexClientModel) (am : Bool) (cache : PersonCache)
    (h : messages ≠ []) :
    group_all_conversations messages cw uid ip client am cache =
      (if (messages.filter (fun m => m.space_type = SpaceType.DM)).isEmpty then
        Except.ok ([] ++
          (if (messages.filter (fun m => m.space_type = SpaceType.GROUP)).isEmpty
            then []
            else group_group_conversations
              (messages.filter (fun m => m.space_type = SpaceType.GROUP)) cw uid am))
      else
        match group_dm_conversations
            (messages.filter (fun m => m.space_type = SpaceType.DM))
            cw uid ip client am cache with
        | .error e => .error e
        | .ok (dmConvs, _) =>
          Except.ok (dmConvs ++
            (if (messages.filter (fun m => m.space_type = SpaceType.GROUP)).isEmpty
              then []
              else group_group_conversations
                (messages.filter (fun m => m.space_type = SpaceType.GROUP)) cw uid am))) := by
  cases messages with
  | nil => exact absurd rfl h
  | cons m rest => rfl

/-- Master lemma about a successful `group_all_conversations` run: no message
id is claimed twice (given distinct input ids), conversation ids are
pairwise distinct, every emitted message comes from the input, and every
conversation has the documented shape (field consistency, sortedness, space
purity and the id/window facts of its family). -/
theorem group_all_conversations_spec (messages : List Message) (cw : Int)
    (uid : String) (ip : Bool) (client : Option WebexClientModel) (am : Bool)
    (cache : PersonCache) (convs : List Conversation)
    (hok : group_all_conversations messages cw uid ip client am cache = .ok convs) :
    ((messages.map Message.id).Nodup →
      ((convs.map Conversation.messages).flatten.map Message.id).Nodup) ∧
    (convs.map Conversation.id).Nodup ∧
    (∀ m ∈ (convs.map Conversation.messages).flatten, m ∈ messages) ∧
    (∀ conv ∈ convs, ∃ m0 tl n,
      conv.messages = m0 :: tl ∧
      conv.space_id = m0.space_id ∧
      conv.space_type = m0.space_type ∧
      conv.start_time = m0.timestamp ∧
      conv.end_time = (tl.getLastD m0).timestamp ∧
      conv.duration_seconds = (tl.getLastD m0).timestamp - m0.timestamp ∧
      SortedTS (m0 :: tl) ∧
      (∀ m ∈ conv.messages, m ∈ messages ∧ m.space_id = conv.space_id ∧
        m.space_type = conv.space_type) ∧
      ((conv.is_threaded = false ∧
        (∃ slug, conv.id = "dm-" ++ slug ++ "-" ++ Nat.repr n ∨
          conv.id = "group-nonthread-" ++ slug ++ "-" ++ Nat.repr n) ∧
        (∀ m ∈ tl, m0.timestamp ≤ m.timestamp ∧ m.timestamp ≤ m0.timestamp + cw)) ∨
       (conv.is_threaded = true ∧
        conv.id = "group-thread-" ++ slugify m0.space_name ++ "-" ++ Nat.repr n))) := by
  by_cases hne : messages = []
  · subst hne
    have h2 : (Except.ok ([] : List Conversation) :
        Except PyErr (List Conversation)) = .ok convs := hok
    injection h2 with h3
    subst h3
    exact ⟨fun _ => by simp, by simp, by simp, by simp⟩
  · rw [gac_eq messages cw uid ip client am cache hne] at hok
    set D := messages.filter (fun m => m.space_type = SpaceType.DM) with hD
    set G := messages.filter (fun m => m.space_type = SpaceType.GROUP) with hG
    have hDsub : ∀ m ∈ D, m ∈ messages ∧ m.space_type = SpaceType.DM := by
      intro m hm
      rw [hD] at hm
      have := List.mem_filter.mp hm
      exact ⟨this.1, by simpa using this.2⟩
    have hGsub : ∀ m ∈ G, m ∈ messages ∧ m.space_type = SpaceType.GROUP := by
      intro m hm
      rw [hG] at hm
      have := List.mem_filter.mp hm
      exact ⟨this.1, by simpa using this.2⟩
    have hDsl : List.Sublist D messages := by
      rw [hD]; exact List.filter_sublist messages
    have hGsl : List.Sublist G messages := by
      rw [hG]; exact List.filter_sublist messages
    have hGC : ∃ GC : List Conversation,
        (if G.isEmpty then ([] : List Conversation) else
          group_group_conversations G cw uid am) = GC ∧
        CounterIds 1 GC ∧
        ((G.map Message.id).Nodup →
          ((GC.map Conversation.messages).flatten.map Message.id).Nodup) ∧
        (∀ m ∈ (GC.map Conversation.messages).flatten, m ∈ G) ∧
        (∀ conv ∈ GC, ∃ m0 tl n, conv.messages = m0 :: tl ∧
          conv.space_id = m0.space_id ∧ conv.space_type = m0.space_type ∧
          conv.start_time = m0.timestamp ∧
          conv.end_time = (tl.getLastD m0).timestamp ∧
          conv.duration_seconds = (tl.getLastD m0).timestamp - m0.timestamp ∧
          SortedTS (m0 :: tl) ∧
          (∀ m ∈ conv.messages, m ∈ G ∧ m.space_id = conv.space_id) ∧
          (am = true ∨ ∃ mp, mp ∈ G ∧ mp.space_id = conv.space_id ∧
            mp.sender.id = uid) ∧
          ((conv.is_threaded = true ∧
            conv.id = "group-thread-" ++ slugify m0.space_name ++ "-" ++
              Nat.repr n) ∨
           (conv.is_threaded = false ∧
            conv.id = "group-nonthread-" ++ slugify m0.space_name ++ "-" ++
              Nat.repr n ∧
            (∀ m ∈ tl, m0.timestamp ≤ m.timestamp ∧
              m.timestamp ≤ m0.timestamp + cw)))) := by
      by_cases hge : G.isEmpty = true
      · exact ⟨[], by rw [if_pos hge], counterIds_nil 1, fun _ => by simp,
          by simp, by simp⟩
      · obtain ⟨g1, g2, g3, g4⟩ := group_group_conversations_spec G cw uid am
        exact ⟨group_group_conversations G cw uid am, by rw [if_neg hge],
          g1, g2, g3, g4⟩
    obtain ⟨GC, hGCdef, hgc1, hgc2, hgc3, hgc4⟩ := hGC
    rw [hGCdef] at hok
    have hGfacts : ∀ conv ∈ GC, ∃ m0 tl n,
        conv.messages = m0 :: tl ∧ conv.space_id = m0.space_id ∧
        conv.space_type = m0.space_type ∧ conv.start_time = m0.timestamp ∧
        conv.end_time = (tl.getLastD m0).timestamp ∧
        conv.duration_seconds = (tl.getLastD m0).timestamp - m0.timestamp ∧
        SortedTS (m0 :: tl) ∧
        (∀ m ∈ conv.messages, m ∈ messages ∧ m.space_id = conv.space_id ∧
          m.space_type = conv.space_type) ∧
        ((conv.is_threaded = false ∧
          (∃ slug, conv.id = "dm-" ++ slug ++ "-" ++ Nat.repr n ∨
            conv.id = "group-nonthread-" ++ slug ++ "-" ++ Nat.repr n) ∧
          (∀ m ∈ tl, m0.timestamp ≤ m.timestamp ∧
            m.timestamp ≤ m0.timestamp + cw)) ∨
         (conv.is_threaded = true ∧
          conv.id = "group-thread-" ++ slugify m0.space_name ++ "-" ++
            Nat.repr n)) := by
      intro conv hconv
      obtain ⟨m0, tl, n, b1, b2, b3, b4, b5, b6, b7, b8, _, b10⟩ := hgc4 conv hconv
      have hsty : conv.space_type = SpaceType.GROUP := by
        rw [b3]
        exact (hGsub m0 (b8 m0 (by rw [b1]; exact List.mem_cons_self _ _)).1).2
      refine ⟨m0, tl, n, b1, b2, b3, b4, b5, b6, b7, ?_, ?_⟩
      · intro m hm
        refine ⟨(hGsub m (b8 m hm).1).1, (b8 m hm).2, ?_⟩
        rw [hsty]
        exact (hGsub m (b8 m hm).1).2
      · rcases b10 with ⟨ht, hid⟩ | ⟨ht, hid, hbound⟩
        · exact Or.inr ⟨ht, hid⟩
        · exact Or.inl ⟨ht, ⟨slugify m0.space_name, Or.inr hid⟩, hbound⟩
    have hGheads : ∀ conv ∈ GC, conv.id.data.head? = some 'g' := by
      intro conv hconv
      obtain ⟨m0, tl, n, _, _, _, _, _, _, _, _, _, b10⟩ := hgc4 conv hconv
      rcases b10 with ⟨_, hid⟩ | ⟨_, hid, _⟩
      · rw [hid]; exact id_head_gthread _ _
      · rw [hid]; exact id_head_gnonthread _ _
    by_cases hde : D.isEmpty = true
    · rw [if_pos hde] at hok
      have h2 : (Except.ok ([] ++ GC) :
          Except PyErr (List Conversation)) = .ok convs := hok
      injection h2 with h3
      rw [List.nil_append] at h3
      subst h3
      refine ⟨?_, counterIds_nodup hgc1, ?_, hGfacts⟩
      · intro hmn
        exact hgc2 ((hGsl.map Message.id).nodup hmn)
      · intro m hm
        exact (hGsub m (hgc3 m hm)).1
    · rw [if_neg hde] at hok
      rcases hgdm : group_dm_conversations D cw uid ip client am cache with e | p
      · rw [hgdm] at hok
        exact Except.noConfusion hok
      · obtain ⟨dmConvs, cacheF⟩ := p
        rw [hgdm] at hok
        have h2 : (Except.ok (dmConvs ++ GC) :
            Except PyErr (List Conversation)) = .ok convs := hok
        injection h2 with h3
        subst h3
        obtain ⟨hd1, hd2, hd3, hd4⟩ :=
          group_dm_conversations_spec D cw uid ip client am cache dmConvs cacheF hgdm
        have hDfacts : ∀ conv ∈ dmConvs, ∃ m0 tl n,
            conv.messages = m0 :: tl ∧ conv.space_id = m0.space_id ∧
            conv.space_type = m0.space_type ∧ conv.start_time = m0.timestamp ∧
            conv.end_time = (tl.getLastD m0).timestamp ∧
            conv.duration_seconds = (tl.getLastD m0).timestamp - m0.timestamp ∧
            SortedTS (m0 :: tl) ∧
            (∀ m ∈ conv.messages, m ∈ messages ∧ m.space_id = conv.space_id ∧
              m.space_type = conv.space_type) ∧
            ((conv.is_threaded = false ∧
              (∃ slug, conv.id = "dm-" ++ slug ++ "-" ++ Nat.repr n ∨
                conv.id = "group-nonthread-" ++ slug ++ "-" ++ Nat.repr n) ∧
              (∀ m ∈ tl, m0.timestamp ≤ m.timestamp ∧
                m.timestamp ≤ m0.timestamp + cw)) ∨
             (conv.is_threaded = true ∧
              conv.id = "group-thread-" ++ slugify m0.space_name ++ "-" ++
                Nat.repr n)) := by
          intro conv hconv
          obtain ⟨m0, tl, n, slug, a1, a2, a3, a4, a5, a6, a7, a8, a9, a10, a11⟩ :=
            hd4 conv hconv
          have hsty : conv.space_type = SpaceType.DM := by
            rw [a3]
            exact (hDsub m0 (a11 m0 (by rw [a4]; exact List.mem_cons_self _ _)).1).2
          refine ⟨m0, tl, n, a4, a2, a3, a5, a6, a7, a9, ?_,
            Or.inl ⟨a8, ⟨slug, Or.inl a1⟩, a10⟩⟩
          intro m hm
          refine ⟨(hDsub m (a11 m hm).1).1, (a11 m hm).2, ?_⟩
          rw [hsty]
          exact (hDsub m (a11 m hm).1).2
        have hDheads : ∀ conv ∈ dmConvs, conv.id.data.head? = some 'd' := by
          intro conv hconv
          obtain ⟨m0, tl, n, slug, a1, _⟩ := hd4 conv hconv
          rw [a1]
          exact id_head_dm _ _
        refine ⟨?_, ?_, ?_, ?_⟩
        · intro hmn
          rw [List.map_append, List.flatten_append, List.map_append,
            List.nodup_append]
          refine ⟨hd2 ((hDsl.map Message.id).nodup hmn),
            hgc2 ((hGsl.map Message.id).nodup hmn), ?_⟩
          intro x hx hx'
          obtain ⟨m, hm, rfl⟩ := List.mem_map.mp hx
          obtain ⟨m', hm', hmid⟩ := List.mem_map.mp hx'
          have hmD := hDsub m (hd3 m hm)
          have hmG := hGsub m' (hgc3 m' hm')
          have heq : m = m' := List.inj_on_of_nodup_map hmn hmD.1 hmG.1 hmid.symm
          rw [← heq] at hmG
          rw [hmD.2] at hmG
          exact SpaceType.noConfusion hmG.2
        · rw [List.map_append, List.nodup_append]
          refine ⟨counterIds_nodup hd1, counterIds_nodup hgc1, ?_⟩
          intro x hx hx'
          obtain ⟨c1, hc1, rfl⟩ := List.mem_map.mp hx
          obtain ⟨c2, hc2, hcid⟩ := List.mem_map.mp hx'
          have hh1 := hDheads c1 hc1
          have hh2 := hGheads c2 hc2
          rw [hcid] at hh2
          rw [hh1] at hh2
          exact absurd hh2 (by decide)
        · intro m hm
          rw [List.map_append, List.flatten_append] at hm
          rcases List.mem_append.mp hm with hm | hm
          · exact (hDsub m (hd3 m hm)).1
          · exact (hGsub m (hgc3 m hm)).1
        · intro conv hconv
          rcases List.mem_append.mp hconv with hconv | hconv
          · exact hDfacts conv hconv
          · exact hGfacts conv hconv

/-! ## The claims -/

/-- C1: for every input whose message ids are distinct, no message appears
in more than one conversation emitted by `group_all_conversations`: the
concatenation of the `messages` fields of all emitted conversations has
pairwise-distinct message ids, so each message is claimed by at most one
conversation — threaded or windowed, within or across spaces. -/
theorem group_all_conversations_no_double_claim (messages : List Message)
    (cw : Int) (uid : String) (ip : Bool) (client : Option WebexClientModel)
    (am : Bool) (cache : PersonCache) (convs : List Conversation)
    (hids : (messages.map Message.id).Nodup)
    (hok : group_all_conversations messages cw uid ip client am cache = .ok convs) :
    ((convs.map Conversation.messages).flatten.map Message.id).Nodup :=
  (group_all_conversations_spec messages cw uid ip client am cache convs hok).1 hids

theorem group_all_conversations_no_double_claim_witness :
    ((wMsgs.map Message.id).Nodup ∧
      group_all_conversations wMsgs 900 "u1" false none false [] = .ok wConvs) ∧
    ((wConvs.map Conversation.messages).flatten.map Message.id).Nodup :=
  ⟨⟨by decide, rfl⟩,
    group_all_conversations_no_double_claim wMsgs 900 "u1" false none false []
      wConvs (by decide) rfl⟩

/-- C3: every non-threaded (windowed) conversation emitted by
`group_all_conversations` — from the DM grouper or the group non-thread
grouper alike — is a seed message followed only by messages that are not
earlier than the seed (the sweep never looks backward) and whose timestamps
exceed the seed's by at most the context window; with the messages sorted,
this bounds every consecutive pair against the seed. -/
theorem group_all_conversations_window_bound (messages : List Message)
    (cw : Int) (uid : String) (ip : Bool) (client : Option WebexClientModel)
    (am : Bool) (cache : PersonCache) (convs : List Conversation)
    (hok : group_all_conversations messages cw uid ip client am cache = .ok convs) :
    ∀ conv ∈ convs, conv.is_threaded = false →
      ∃ m0 tl, conv.messages = m0 :: tl ∧
        ∀ m ∈ tl, m0.timestamp ≤ m.timestamp ∧
          m.timestamp ≤ m0.timestamp + cw := by
  intro conv hconv hth
  obtain ⟨m0, tl, n, b1, _, _, _, _, _, _, _, bfam⟩ :=
    (group_all_conversations_spec messages cw uid ip client am cache
      convs hok).2.2.2 conv hconv
  rcases bfam with ⟨_, _, hbound⟩ | ⟨ht, _⟩
  · exact ⟨m0, tl, b1, hbound⟩
  · rw [hth] at ht
    exact Bool.noConfusion ht

theorem group_all_conversations_window_bound_witness :
    group_all_conversations wMsgs 900 "u1" false none false [] = .ok wConvs ∧
    (∀ conv ∈ wConvs, conv.is_threaded = false →
      ∃ m0 tl, conv.messages = m0 :: tl ∧
        ∀ m ∈ tl, m0.timestamp ≤ m.timestamp ∧
          m.timestamp ≤ m0.timestamp + 900) :=
  ⟨rfl, group_all_conversations_window_bound wMsgs 900 "u1" false none false []
    wConvs rfl⟩

/-- C5: every conversation emitted by `group_all_conversations` has a
nonempty message list sorted ascending by timestamp, `start_time` the
timestamp of its first (minimum) message, `end_time` the timestamp of its
last (maximum) message, and `duration_seconds = end_time - start_time` in
whole seconds (hence `0` for a single-message conversation). -/
theorem group_all_conversations_temporal_fields (messages : List Message)
    (cw : Int) (uid : String) (ip : Bool) (client : Option WebexClientModel)
    (am : Bool) (cache : PersonCache) (convs : List Conversation)
    (hok : group_all_conversations messages cw uid ip client am cache = .ok convs) :
    ∀ conv ∈ convs, ∃ m0 tl,
      conv.messages = m0 :: tl ∧
      SortedTS conv.messages ∧
      conv.start_time = m0.timestamp ∧
      conv.end_time = (tl.getLastD m0).timestamp ∧
      conv.duration_seconds = conv.end_time - conv.start_time ∧
      (∀ m ∈ conv.messages, conv.start_time ≤ m.timestamp ∧
        m.timestamp ≤ conv.end_time) := by
  intro conv hconv
  obtain ⟨m0, tl, n, b1, _, _, b4, b5, b6, b7, _, _⟩ :=
    (group_all_conversations_spec messages cw uid ip client am cache
      convs hok).2.2.2 conv hconv
  refine ⟨m0, tl, b1, ?_, b4, b5, ?_, ?_⟩
  · rw [b1]; exact b7
  · rw [b6, b5, b4]
  · intro m hm
    rw [b1] at hm
    rw [b4, b5]
    exact ⟨sortedTS_head_le b7 m hm, sortedTS_le_last tl m0 b7 m hm⟩

theorem group_all_conversations_temporal_fields_witness :
    group_all_conversations wMsgs 900 "u1" false none false [] = .ok wConvs ∧
    (∀ conv ∈ wConvs, ∃ m0 tl,
      conv.messages = m0 :: tl ∧
      SortedTS conv.messages ∧
      conv.start_time = m0.timestamp ∧
      conv.end_time = (tl.getLastD m0).timestamp ∧
      conv.duration_seconds = conv.end_time - conv.start_time ∧
      (∀ m ∈ conv.messages, conv.start_time ≤ m.timestamp ∧
        m.timestamp ≤ conv.end_time)) :=
  ⟨rfl, group_all_conversations_temporal_fields wMsgs 900 "u1" false none false []
    wConvs rfl⟩

/-- C6: within one `group_all_conversations` run all emitted conversation
ids are pairwise distinct; each id ends in its counter value as the final
hyphen-separated token (the DM pass and the group pass each thread one
monotonically increasing counter, and the three family stems keep the id
families apart even though slugs may themselves contain hyphens). -/
theorem group_all_conversations_ids_unique (messages : List Message)
    (cw : Int) (uid : String) (ip : Bool) (client : Option WebexClientModel)
    (am : Bool) (cache : PersonCache) (convs : List Conversation)
    (hok : group_all_conversations messages cw uid ip client am cache = .ok convs) :
    (convs.map Conversation.id).Nodup ∧
    ∀ conv ∈ convs, ∃ stem n, conv.id = stem ++ "-" ++ Nat.repr n ∧
      lastTok conv.id.data = (Nat.repr n).data := by
  have hspec := group_all_conversations_spec messages cw uid ip client am cache
    convs hok
  refine ⟨hspec.2.1, ?_⟩
  intro conv hconv
  obtain ⟨m0, tl, n, _, _, _, _, _, _, _, _, bfam⟩ := hspec.2.2.2 conv hconv
  rcases bfam with ⟨_, ⟨slug, hid | hid⟩, _⟩ | ⟨_, hid⟩
  · exact ⟨"dm-" ++ slug, n, hid, by rw [hid]; exact lastTok_id _ n⟩
  · exact ⟨"group-nonthread-" ++ slug, n, hid, by rw [hid]; exact lastTok_id _ n⟩
  · exact ⟨"group-thread-" ++ slugify m0.space_name, n, hid,
      by rw [hid]; exact lastTok_id _ n⟩

theorem group_all_conversations_ids_unique_witness :
    group_all_conversations wMsgs 900 "u1" false none false [] = .ok wConvs ∧
    ((wConvs.map Conversation.id).Nodup ∧
      ∀ conv ∈ wConvs, ∃ stem n, conv.id = stem ++ "-" ++ Nat.repr n ∧
        lastTok conv.id.data = (Nat.repr n).data) :=
  ⟨rfl, group_all_conversations_ids_unique wMsgs 900 "u1" false none false []
    wConvs rfl⟩

/-- C7: space purity — every message of every conversation emitted by
`group_all_conversations` carries the conversation's own `space_id` and a
matching `space_type`; messages of different spaces are never merged into
one conversation, whatever their timestamps. -/
theorem group_all_conversations_space_purity (messages : List Message)
    (cw : Int) (uid : String) (ip : Bool) (client : Option WebexClientModel)
    (am : Bool) (cache : PersonCache) (convs : List Conversation)
    (hok : group_all_conversations messages cw uid ip client am cache = .ok convs) :
    ∀ conv ∈ convs, ∀ m ∈ conv.messages,
      m.space_id = conv.space_id ∧ m.space_type = conv.space_type := by
  intro conv hconv m hm
  obtain ⟨m0, tl, n, _, _, _, _, _, _, _, b8, _⟩ :=
    (group_all_conversations_spec messages cw uid ip client am cache
      convs hok).2.2.2 conv hconv
  exact ⟨(b8 m hm).2.1, (b8 m hm).2.2⟩

theorem group_all_conversations_space_purity_witness :
    group_all_conversations wMsgs 900 "u1" false none false [] = .ok wConvs ∧
    (∀ conv ∈ wConvs, ∀ m ∈ conv.messages,
      m.space_id = conv.space_id ∧ m.space_type = conv.space_type) :=
  ⟨rfl, group_all_conversations_space_purity wMsgs 900 "u1" false none false []
    wConvs rfl⟩

/-- C4: participation gate — with `all_messages = false`, if the
authenticated user sent no message in a given group space then
`group_group_conversations` emits no conversation for that space, threaded
or non-threaded, regardless of `include_passive` (which the group pass does
not consult) and of how the other senders' messages cluster in time. -/
theorem group_group_conversations_participation_gate (messages : List Message)
    (cw : Int) (uid : String) (S : String)
    (habsent : ∀ m ∈ messages, m.space_id = S → ¬(m.sender.id = uid)) :
    ∀ conv ∈ group_group_conversations messages cw uid false,
      ¬(conv.space_id = S) := by
  intro conv hconv hS
  obtain ⟨_, _, _, g4⟩ := group_group_conversations_spec messages cw uid false
  obtain ⟨m0, tl, n, _, _, _, _, _, _, _, _, hpart, _⟩ := g4 conv hconv
  rcases hpart with hfalse | ⟨mp, hmp, hmpS, hmpu⟩
  · exact Bool.noConfusion hfalse
  · exact habsent mp hmp (hmpS.trans hS) hmpu

theorem group_group_conversations_participation_gate_witness :
    (∀ m ∈ [mgV], m.space_id = "sg" → ¬(m.sender.id = "u1")) ∧
    (∀ conv ∈ group_group_conversations [mgV] 900 "u1" false,
      ¬(conv.space_id = "sg")) :=
  ⟨by decide, group_group_conversations_participation_gate [mgV] 900 "u1" "sg"
    (by decide)⟩

/-- C2 (amended): the original-poster move-to-front branch of
`_create_thread_conversations` is dead code — the message located by the
original-poster search over a bucket is necessarily a member of that very
bucket, so the guarding membership test never fires — and every surviving
thread bucket is emitted *unchanged* as the conversation's message list; in
particular a recorded original poster's message that is not first in the
bucket stays where it is. -/
theorem create_thread_conversations_buckets_unchanged
    (tc : List (String × List Message)) (town : List (String × String))
    (uid : String) (c : Nat) (am : Bool) :
    ((_create_thread_conversations tc town uid c am).1).map Conversation.messages =
      (tc.filter (fun e => (e.2.any (fun m => m.sender.id = uid) || am) &&
        !e.2.isEmpty)).map Prod.snd :=
  ctcLoop_messages town uid am tc c

/-- C2 counterexample: the bucket `[mgW2, mgW1]` of thread `t1` survives
filtering for user `u1`, its recorded original poster `u2` authored `mgW1`,
the search finds `mgW1`, and `mgW1` is not first in the bucket — yet the
emitted threaded conversation's message list is the bucket unchanged, with
`mgW1` still second instead of moved to the front. -/
theorem create_thread_conversations_no_front_move :
    dictFind [("t1", "u2")] "t1" = some "u2" ∧
    mgW1.sender.id = "u2" ∧
    [mgW2, mgW1].find? (fun m => m.sender.id = "u2") = some mgW1 ∧
    [mgW2, mgW1].head? ≠ some mgW1 ∧
    ([mgW2, mgW1].any (fun m => m.sender.id = "u1") = true) ∧
    ((_create_thread_conversations [("t1", [mgW2, mgW1])] [("t1", "u2")]
        "u1" 1 false).1).map Conversation.messages = [[mgW2, mgW1]] :=
  ⟨rfl, rfl, by decide, by decide, by decide, by decide⟩

/-- The `try` block of `build_dm_conversation` never resolves a counterpart
in this repository: the membership listing failing, no counterpart
membership existing, and the `ImportError` of the in-loop
`from .webex import safe_get_person` (raised when a counterpart *is* found)
are all swallowed by the `except`, so every branch yields `None` and leaves
the cache untouched. -/
theorem tryResolveOther_none (cl : WebexClientModel) (space_id user_id : String)
    (cache : PersonCache) :
    tryResolveOther cl space_id user_id cache = (none, cache) := by
  unfold tryResolveOther
  cases hml : cl.membershipsList space_id with
  | error e => rfl
  | ok ms =>
    show (match ms.find? (fun mb => mb.personId ≠ user_id) with
          | none => ((none, cache) : Option User × PersonCache)
          | some _ => (none, cache)) = (none, cache)
    cases ms.find? (fun mb => mb.personId ≠ user_id) with
    | none => rfl
    | some mb => rfl

/-- C8: `build_dm_conversation` never propagates a failure of the optional
Room-Membership / Person-Lookup collaborator.  On a nonempty DM window all
of whose senders are the authenticated user, it returns a conversation for
*every* collaborator and cache — collaborator absent, membership listing
raising, or no counterpart found alike — with the fallback slug `"unknown"`
in the conversation id and the person cache untouched.  The person lookup
itself can never resolve (to a counterpart or to the `[Deleted User]`
placeholder): the `try` block's own `from .webex import safe_get_person`
raises in this repository and is swallowed by the `except` before
`safe_get_person` can run, so the deleted-account-sentinel slug case of the
spec is unreachable and the result is the `"unknown"` slug in every case,
rather than an exception. -/
theorem build_dm_conversation_fallback (m0 : Message) (rest : List Message)
    (uid : String) (cid : Nat) (client : Option WebexClientModel)
    (cache : PersonCache)
    (hsend : ∀ m ∈ m0 :: rest, m.sender.id = uid) :
    ∃ conv,
      build_dm_conversation (m0 :: rest) uid cid client cache =
        .ok (conv, cache) ∧
      conv.messages = m0 :: rest ∧
      conv.id = "dm-unknown-" ++ Nat.repr cid := by
  have hother : ((sendersDict (m0 :: rest)).map Prod.snd).find?
      (fun p => p.id ≠ uid) = none := find_other_none (m0 :: rest) uid hsend
  cases client with
  | none =>
    exact ⟨_, build_dm_conversation_none_red m0 rest uid cid cache hother,
      rfl, rfl⟩
  | some cl =>
    have h := build_dm_conversation_some_red m0 rest uid cid cl cache hother
    rw [tryResolveOther_none cl m0.space_id uid cache] at h
    exact ⟨_, h, rfl, rfl⟩

theorem build_dm_conversation_fallback_witness :
    (∀ m ∈ mdW1 :: [], m.sender.id = "u1") ∧
    (∃ conv,
      build_dm_conversation (mdW1 :: []) "u1" 7 (some clW) [] =
        .ok (conv, []) ∧
      conv.messages = mdW1 :: [] ∧
      conv.id = "dm-unknown-" ++ Nat.repr 7) :=
  ⟨by decide, build_dm_conversation_fallback mdW1 [] "u1" 7 (some clW) []
    (by decide)⟩
